import Mathlib

/-!
Verification development for the MedMAP matching & guardrail pipeline.

The definitions below are a shallow embedding of the backend services:
`app/services/guardrail_service.py`, `app/services/search_service.py` and the
per-mention body of `app/api/routes.py::extract_route`.  Python strings are
modelled as `List Char` (ASCII semantics for the character classes used by the
source regexes), Python floats as exact rationals `ℚ`, SQL tables as Lean
lists/functions, and the external vector-index tier as an explicit outcome
oracle.  Each service function keeps its source name.
-/

set_option maxHeartbeats 1600000

namespace MedMap

abbrev Str := List Char

/-- Python `str.lower()` on an ASCII character. -/
def lowerChar (c : Char) : Char :=
  if 'A' ≤ c ∧ c ≤ 'Z' then Char.ofNat (c.toNat + 32) else c

/-- Python `str.lower()` over a string. -/
def lowerStr (s : Str) : Str := s.map lowerChar

/-- Whitespace characters recognised by Python `str.split()` / `str.strip()` (ASCII). -/
def pyIsSpace (c : Char) : Bool :=
  c = ' ' ∨ c = '\t' ∨ c = '\n' ∨ c = '\x0d' ∨ c = '\x0b' ∨ c = '\x0c'

/-- Regex class `\d` (ASCII). -/
def isDigitC (c : Char) : Bool := c.isDigit

/-- Regex class `[a-zA-Z]`. -/
def isAlphaC (c : Char) : Bool := c.isAlpha

/-- Regex class `\w` (ASCII): alphanumeric or underscore. -/
def isWordC (c : Char) : Bool := c.isAlphanum ∨ c = '_'

theorem lenDropWhile_le (p : Char → Bool) (l : Str) : (l.dropWhile p).length ≤ l.length := by
  induction l with
  | nil => simp [List.dropWhile]
  | cons c cs ih =>
    by_cases h : p c
    · simp only [List.dropWhile, h]
      exact Nat.le_trans ih (Nat.le_succ _)
    · simp [List.dropWhile, h]

/-- The word list of Python `str.split()`: maximal runs of non-whitespace
    characters, in order (whitespace runs separate words and are dropped).
    A non-space character is prepended to the following word when the next
    character is also non-space. -/
def pyWords : Str → List Str
  | [] => []
  | [c] => if pyIsSpace c then [] else [[c]]
  | c :: d :: cs =>
    if pyIsSpace c then pyWords (d :: cs)
    else if pyIsSpace d then [c] :: pyWords (d :: cs)
    else
      let rest := pyWords (d :: cs)
      (c :: rest.headD []) :: rest.tail

/-- `pyWords` on a non-space head takes the maximal non-space run. -/
theorem pyWords_cons_not_space (c : Char) (cs : Str) (hc : ¬ pyIsSpace c) :
    pyWords (c :: cs) =
      (c :: cs.takeWhile (fun x => ¬ pyIsSpace x)) ::
        pyWords (cs.dropWhile (fun x => ¬ pyIsSpace x)) := by
  induction cs generalizing c with
  | nil => simp [pyWords, hc]
  | cons d cs' ih =>
    by_cases hd : pyIsSpace d
    · simp [pyWords, hc, hd, List.takeWhile_cons, List.dropWhile_cons]
    · have hrec := ih d hd
      simp only [pyWords]
      rw [if_neg hc, if_neg hd, hrec]
      simp [hd, List.takeWhile_cons, List.dropWhile_cons]

/-- `" ".join ws`. -/
def joinSpace : List Str → Str
  | [] => []
  | [w] => w
  | w :: ws => w ++ ' ' :: joinSpace ws

/-- `_normalize_spaces` (guardrail_service.py line 32): `" ".join(value.split()).strip()`. -/
def normSpaces (s : Str) : Str := joinSpace (pyWords s)

/-- `re.findall(r"\d+", value)` — the maximal digit runs, in order
    (`_extract_numeric_tokens`, guardrail_service.py line 28).  A digit is
    prepended to the following run when the next character is also a digit. -/
def digitRuns : Str → List Str
  | [] => []
  | [c] => if isDigitC c then [[c]] else []
  | c :: d :: cs =>
    if isDigitC c then
      if isDigitC d then
        let rest := digitRuns (d :: cs)
        (c :: rest.headD []) :: rest.tail
      else [c] :: digitRuns (d :: cs)
    else digitRuns (d :: cs)

/-- `digitRuns` on a digit head takes the maximal digit run. -/
theorem digitRuns_cons_digit (c : Char) (cs : Str) (hc : isDigitC c) :
    digitRuns (c :: cs) =
      (c :: cs.takeWhile isDigitC) :: digitRuns (cs.dropWhile isDigitC) := by
  induction cs generalizing c with
  | nil => simp [digitRuns, hc]
  | cons d cs' ih =>
    by_cases hd : isDigitC d
    · have hrec := ih d hd
      simp only [digitRuns, hc, if_true, if_pos rfl]
      rw [hrec]
      simp [hd, List.takeWhile_cons, List.dropWhile_cons]
    · simp [digitRuns, hc, hd, List.takeWhile_cons, List.dropWhile_cons]

/-- Head of a list is a `\w` character (used for the trailing `\b` test). -/
def headIsWord : Str → Bool
  | [] => false
  | c :: _ => isWordC c

theorem dropDigitsAlpha_len_lt (pw : Bool) (c : Char) (cs : Str)
    (h : ¬ (pw = true ∨ ¬ isDigitC c = true)) :
    ((List.dropWhile isDigitC (c :: cs)).dropWhile isAlphaC).length < cs.length + 1 := by
  have hd : isDigitC c = true := not_not.mp (not_or.mp h).2
  have e1 : List.dropWhile isDigitC (c :: cs) = List.dropWhile isDigitC cs := by
    simp [List.dropWhile_cons, hd]
  rw [e1]
  have h2 := lenDropWhile_le isAlphaC (List.dropWhile isDigitC cs)
  have h3 := lenDropWhile_le isDigitC cs
  omega

/-- `re.sub(r"\b\d+[a-zA-Z]*\b", " ", s)` (guardrail_service.py line 44),
    scanning left to right.  `pw` records whether the previous character of the
    original string is a `\w` character (`false` at the start of the string), which
    is exactly what the leading `\b` needs; a candidate match takes the maximal
    digit run and then the maximal letter run and succeeds iff the next character
    is not a `\w` character (greedy matching with backtracking admits no other
    successful split). -/
def subNumTokens (pw : Bool) (s : Str) : Str :=
  match s with
  | [] => []
  | c :: cs =>
    if h : pw ∨ ¬ isDigitC c then c :: subNumTokens (isWordC c) cs
    else
      let r2 := (List.dropWhile isDigitC (c :: cs)).dropWhile isAlphaC
      if headIsWord r2 then c :: subNumTokens true cs
      else ' ' :: subNumTokens true r2
termination_by s.length
decreasing_by
  all_goals simp only [List.length_cons]
  · omega
  · omega
  · exact dropDigitsAlpha_len_lt _ _ _ (by assumption)

/-- Python `str.strip()`. -/
def pyStrip (s : Str) : Str :=
  ((s.dropWhile pyIsSpace).reverse.dropWhile pyIsSpace).reverse

/-- Python truthiness of an optional string. -/
def truthy : Option Str → Bool
  | none => false
  | some s => ¬ s.isEmpty

/-- Association-list lookup, modelling Python `dict.get`. -/
def alGet (m : List (Str × Str)) (k : Str) : Option Str :=
  match m with
  | [] => none
  | (k', v) :: rest => if k = k' then some v else alGet rest k

/-! ## Data model (app/models/schemas.py, app/models/sql_models.py) -/

/-- `ExtractedData` / `ExtractedMedicine` (schemas.py): one extracted mention.
    `brand_name`/`brand_variant` are the property names used by the services. -/
structure ExtractedMedicine where
  raw_input : Str
  brand_name : Str
  brand_variant : Option Str
  generic_name : Option Str
  strength : Option Str
  form : Option Str
  frequency : Option Str
deriving DecidableEq

/-- `CandidateMatch` (schemas.py). -/
structure CandidateMatch where
  id : Int
  score : ℚ
  metadata : List (Str × Str)
deriving DecidableEq

/-- `MedicineRecord` (sql_models.py): one authoritative catalog row. -/
structure MedicineRecord where
  id : Int
  brand_name : Str
  generic_name : Str
  official_strength : Str
  form : Str
  combination_flag : Bool
deriving DecidableEq

/-- `MatchedMedicine` (schemas.py): the terminal per-mention artifact. -/
structure MatchedMedicine where
  id : Int
  brand_name : Str
  generic_name : Str
  official_strength : Str
  form : Str
  combination_flag : Bool
  final_similarity_score : ℚ
  risk_classification : Str
  clinical_risk_tier : Str
  manual_review_required : Bool
deriving DecidableEq

/-! ## guardrail_service.py -/

/-- `FORM_MAP` (guardrail_service.py lines 9-18). -/
def FORM_MAP : List (Str × Str) :=
  [("tab".toList, "tablet".toList),
   ("tablet".toList, "tablet".toList),
   ("cap".toList, "capsule".toList),
   ("caps".toList, "capsule".toList),
   ("capsule".toList, "capsule".toList),
   ("syp".toList, "syrup".toList),
   ("syr".toList, "syrup".toList),
   ("syrup".toList, "syrup".toList)]

/-- `FREQUENCY_MAP` (guardrail_service.py lines 20-25). -/
def FREQUENCY_MAP : List (Str × Str) :=
  [("bd".toList, "2 times per day".toList),
   ("bid".toList, "2 times per day".toList),
   ("tid".toList, "3 times per day".toList),
   ("od".toList, "1 time per day".toList)]

/-- `apply_pre_match_guardrails` (guardrail_service.py lines 36-72), the
    Normalizer.  Returns the normalized mention together with the appended
    audit log. -/
def apply_pre_match_guardrails (extracted : ExtractedMedicine)
    (guardrail_logs : List Str) : ExtractedMedicine × List Str :=
  let raw_brand := normSpaces extracted.brand_name
  let brand_numeric_tokens := digitRuns raw_brand
  let detected_variant : Option Str :=
    match extracted.brand_variant with
    | some v => some v
    | none =>
      match brand_numeric_tokens with
      | [] => none
      | t :: _ => some t
  let logs :=
    if extracted.brand_variant = none ∧ brand_numeric_tokens ≠ [] then
      guardrail_logs ++ ["Variant token stripped".toList]
    else guardrail_logs
  let brand_without_numeric := subNumTokens false raw_brand
  let stripped := lowerStr (normSpaces brand_without_numeric)
  let normalized_brand := if stripped.isEmpty then lowerStr raw_brand else stripped
  let raw_form := normSpaces ((extracted.form).getD [])
  let raw_frequency := normSpaces ((extracted.frequency).getD [])
  let normalized_form : Option Str :=
    match alGet FORM_MAP (lowerStr raw_form) with
    | some v => some v
    | none => if raw_form.isEmpty then none else some (lowerStr raw_form)
  let normalized_frequency : Option Str :=
    match alGet FREQUENCY_MAP (lowerStr raw_frequency) with
    | some v => some v
    | none => if raw_frequency.isEmpty then none else some (lowerStr raw_frequency)
  let logs := if truthy extracted.form ∧
      normalized_form ≠ some (lowerStr ((extracted.form).getD [])) then
      logs ++ ["Normalization rule applied for dosage form".toList] else logs
  let logs := if truthy extracted.frequency ∧
      normalized_frequency ≠ some (lowerStr ((extracted.frequency).getD [])) then
      logs ++ ["Normalization rule applied for frequency".toList] else logs
  let normalized_generic : Option Str :=
    match extracted.generic_name with
    | some g => if g.isEmpty then none else some (lowerStr g)
    | none => none
  let logs := if extracted.brand_name ≠ normalized_brand ∨
      extracted.generic_name ≠ normalized_generic then
      logs ++ ["Normalization rule applied: lowercased extraction fields".toList] else logs
  let logs := if truthy detected_variant ∧ extracted.strength ≠ none then
      logs ++
        ["Variant separation enforced: extracted strength cleared to prevent hallucinated mapping".toList]
      else logs
  (⟨extracted.raw_input,
    normalized_brand,
    detected_variant,
    normalized_generic,
    (if truthy detected_variant then none else extracted.strength),
    normalized_form,
    normalized_frequency⟩, logs)

/-- `_classify_risk` (guardrail_service.py lines 75-80). -/
def _classify_risk (score : ℚ) : Str × Bool :=
  if score ≥ 0.85 then ("High".toList, false)
  else if score ≥ 0.65 then ("Medium".toList, false)
  else ("Low".toList, true)

/-- Python `round(x)` to an integer: round half to even (banker's rounding). -/
def roundHalfEven (x : ℚ) : ℤ :=
  let f := ⌊x⌋
  let r := x - f
  if r < 1/2 then f
  else if 1/2 < r then f + 1
  else if Even f then f else f + 1

/-- Python `round(x, 4)`. -/
def pyRound4 (x : ℚ) : ℚ := (roundHalfEven (x * 10000) : ℚ) / 10000

/-- `apply_post_match_guardrails` (guardrail_service.py lines 83-137): the
    Post-Match Guardrail Engine.  Returns the matched result together with the
    appended audit log. -/
def apply_post_match_guardrails (extracted : ExtractedMedicine)
    (candidate : CandidateMatch) (db_record : MedicineRecord)
    (guardrail_logs : List Str) : MatchedMedicine × List Str :=
  let score : ℚ := candidate.score
  let logs := guardrail_logs ++
    ["Post-match comparison executed: Pinecone candidate ".toList ++
      (toString candidate.id).toList ++
      " checked against SQLite record ".toList ++ (toString db_record.id).toList]
  let extracted_variant := pyStrip ((extracted.brand_variant).getD [])
  let db_variant_tokens := digitRuns db_record.brand_name
  let db_variant := db_variant_tokens.headD []
  let pair1 :=
    if ¬ extracted_variant.isEmpty ∧ ¬ db_variant.isEmpty ∧ extracted_variant ≠ db_variant then
      (score - 0.35, logs ++ ["Variant mismatch penalty applied".toList])
    else if ¬ extracted_variant.isEmpty ∧ db_variant.isEmpty then
      (score - 0.15, logs ++ ["Variant mismatch penalty applied".toList])
    else (score, logs)
  let score := pair1.1
  let logs := pair1.2
  let db_form := lowerStr db_record.form
  let pair2 :=
    if truthy extracted.form ∧ ¬ db_form.isEmpty ∧
        lowerStr ((extracted.form).getD []) ≠ db_form then
      (score - 0.30, logs ++ ["Form mismatch penalty applied".toList])
    else if truthy extracted.form ∧ db_form.isEmpty then
      (score, logs ++ ["Form comparison skipped: database record has no form value".toList])
    else (score, logs)
  let score := pair2.1
  let logs := pair2.2
  let logs := if db_record.combination_flag then
      logs ++ ["Combination lock enforced".toList,
        "Generic splitting blocked due to combination_flag=True".toList]
    else logs
  let final_strength := db_record.official_strength
  let logs := logs ++ ["Official strength injected".toList,
    "AI extracted strength overwritten with SQLite official_strength".toList]
  let score := max 0 (min 1 score)
  let rm := _classify_risk score
  let risk := rm.1
  let manual_review := rm.2
  let logs := logs ++ ["Confidence classification computed: ".toList ++ risk]
  let logs := if manual_review then
      logs ++ ["Risk-based routing: Manual Review Required".toList] else logs
  (⟨db_record.id,
    db_record.brand_name,
    db_record.generic_name,
    final_strength,
    (if db_record.form.isEmpty then "unknown".toList else db_record.form),
    db_record.combination_flag,
    pyRound4 score,
    risk,
    risk,
    manual_review⟩, logs)

/-! ## search_service.py

The catalog store is modelled as a `List MedicineRecord` (the `medicine_records`
table, in arbitrary row order); `ORDER BY id LIMIT 1` selects the row of least
id among those matching.  The history store is a function
`Str → Int → Option ℤ` returning the `mapping_count` of the
`(prescriber_id, medicine_id)` row when one exists.  The external vector-index
tier (Pinecone) is modelled by an explicit outcome oracle covering the branches
of the `try` block of `query_top_candidate`. -/

/-- `NO_MATCH_ID` (search_service.py line 17). -/
def NO_MATCH_ID : Int := -1

/-- `small` occurs as a contiguous substring of `big`. -/
def substrOf (small big : Str) : Bool :=
  match big with
  | [] => small.isEmpty
  | _ :: bs => small.isPrefixOf big || substrOf small bs

/-- SQL `field ILIKE '%term%'`: case-insensitive containment (wildcard
    characters inside `term` are not modelled). -/
def ilikeContains (field term : Str) : Bool :=
  substrOf (lowerStr term) (lowerStr field)

/-- `SELECT ... WHERE p ORDER BY id LIMIT 1` over the catalog list. -/
def selectFirstByIdWhere (db : List MedicineRecord) (p : MedicineRecord → Bool) :
    Option MedicineRecord :=
  match db.filter p with
  | [] => none
  | x :: xs => some (xs.foldl (fun a b => if b.id < a.id then b else a) x)

/-- `get_medicine_by_id` (search_service.py lines 255-257): primary-key lookup. -/
def get_medicine_by_id (record_id : Int) (db : List MedicineRecord) : Option MedicineRecord :=
  db.find? (fun r => r.id == record_id)

/-- The brand-token accumulation loop of `_local_sqlite_fallback`
    (search_service.py lines 112-114): append each word token longer than 3
    characters that is not already among the search terms. -/
def tokenLoop (acc : List Str) : List Str → List Str
  | [] => acc
  | t :: ts =>
    if t.length > 3 ∧ t ∉ acc then tokenLoop (acc ++ [t]) ts else tokenLoop acc ts

/-- The ranked search-term list built by `_local_sqlite_fallback`
    (search_service.py lines 105-114). -/
def fallbackSearchTerms (extracted : ExtractedMedicine) : List Str :=
  let st0 : List Str :=
    if ¬ extracted.brand_name.isEmpty ∧ lowerStr extracted.brand_name ≠ "unknown".toList then
      [lowerStr extracted.brand_name]
    else []
  let st1 := st0 ++
    (match extracted.generic_name with
     | some g => if g.isEmpty then [] else [lowerStr g]
     | none => [])
  tokenLoop st1 (pyWords (lowerStr extracted.brand_name))

/-- The term loop of `_local_sqlite_fallback` (search_service.py lines 116-130):
    first non-empty term whose `ILIKE` query finds a record wins. -/
def tryTerms (db : List MedicineRecord) : List Str → Option (MedicineRecord × Str)
  | [] => none
  | term :: rest =>
    if term.isEmpty then tryTerms db rest
    else
      match selectFirstByIdWhere db
          (fun r => ilikeContains r.brand_name term || ilikeContains r.generic_name term) with
      | some med => some (med, term)
      | none => tryTerms db rest

/-- `_local_sqlite_fallback` (search_service.py lines 104-133). -/
def _local_sqlite_fallback (extracted : ExtractedMedicine) (db : List MedicineRecord) :
    CandidateMatch :=
  match tryTerms db (fallbackSearchTerms extracted) with
  | some (medicine, term) =>
    ⟨medicine.id, 0.78,
      [("source".toList, "sqlite_fallback".toList), ("matched_term".toList, term)]⟩
  | none => ⟨NO_MATCH_ID, 0, [("source".toList, "vlm_only".toList)]⟩

/-- `_apply_prescriber_prior` (search_service.py lines 136-162), the History
    Re-ranker. -/
def _apply_prescriber_prior (candidate : CandidateMatch) (prescriber_id : Option Str)
    (hist : Str → Int → Option ℤ) (guardrail_logs : List Str) :
    CandidateMatch × List Str :=
  match prescriber_id with
  | none => (candidate, guardrail_logs)
  | some p =>
    if p.isEmpty then (candidate, guardrail_logs)
    else
      match hist p candidate.id with
      | none =>
        (candidate,
         guardrail_logs ++ ["Bayesian prescriber prior: no historical mapping found".toList])
      | some mapping_count =>
        let boost := min (0.15 : ℚ) (0.03 * (mapping_count : ℚ))
        let boosted_score := min 1 (candidate.score + boost)
        (⟨candidate.id, boosted_score, candidate.metadata⟩,
         guardrail_logs ++
           ["Bayesian prescriber prior applied: +".toList ++
             (toString (pyRound4 boost)).toList ++ " score boost from history".toList])

/-- Outcome of the Pinecone tier of `query_top_candidate`: the SDK/config guard
    at line 198 may fail (`unavailable`), any call inside the `try` block may
    raise (`raised`, caught at line 247), the query may return no matches, or it
    may return a top match. -/
inductive VectorTierOutcome
  | unavailable
  | raised
  | noMatches
  | topMatch (id : Int) (score : ℚ) (metadata : List (Str × Str))
deriving DecidableEq

/-- The shared fallback tail of `query_top_candidate` (search_service.py lines
    250-252). -/
def fallbackSelection (extracted : ExtractedMedicine) (db : List MedicineRecord)
    (prescriber_id : Option Str) (hist : Str → Int → Option ℤ)
    (guardrail_logs : List Str) : CandidateMatch × List Str :=
  let fallback_candidate := _local_sqlite_fallback extracted db
  _apply_prescriber_prior fallback_candidate prescriber_id hist
    (guardrail_logs ++ ["Hybrid retrieval fallback: SQLite candidate selected".toList])

/-- `query_top_candidate` (search_service.py lines 165-252), the Candidate
    Retriever.  `denseAvail`/`sparseAvail` record whether the embedding model and
    the BM25 encoder initialised (they only influence log lines). -/
def query_top_candidate (outcome : VectorTierOutcome) (extracted : ExtractedMedicine)
    (db : List MedicineRecord) (prescriber_id : Option Str)
    (hist : Str → Int → Option ℤ) (denseAvail sparseAvail : Bool)
    (guardrail_logs : List Str) : CandidateMatch × List Str :=
  let logs := guardrail_logs ++
    [if denseAvail then "Dense vector generated using all-MiniLM-L6-v2".toList
     else "Dense vector generated using deterministic fallback embedding".toList]
  let logs := logs ++
    [if sparseAvail then "Sparse vector generated using BM25 encoder".toList
     else "Sparse encoder unavailable: lexical sparse component skipped".toList]
  match outcome with
  | .topMatch pinecone_id pinecone_score pinecone_meta =>
    match get_medicine_by_id pinecone_id db with
    | some _ =>
      let candidate : CandidateMatch := ⟨pinecone_id, pinecone_score, pinecone_meta⟩
      _apply_prescriber_prior candidate prescriber_id hist
        (logs ++ ["Pinecone async hybrid query executed".toList])
    | none =>
      fallbackSelection extracted db prescriber_id hist
        (logs ++ ["Pinecone returned stale id=".toList ++ (toString pinecone_id).toList ++
          " not in SQLite — falling back to local search".toList])
  | .noMatches => fallbackSelection extracted db prescriber_id hist logs
  | .unavailable => fallbackSelection extracted db prescriber_id hist logs
  | .raised =>
    fallbackSelection extracted db prescriber_id hist
      (logs ++ ["Pinecone unavailable: deterministic SQLite fallback engaged".toList])

/-! ## routes.py — per-mention terminal paths of `extract_route` -/

/-- Python `value or "unknown"` on an optional string field. -/
def orUnknown : Option Str → Str
  | some s => if s.isEmpty then "unknown".toList else s
  | none => "unknown".toList

/-- The degraded `MatchedMedicine` literal built on the VLM-only paths
    (routes.py lines 64-75 and 97-108 — the two literals are identical). -/
def vlmMatched (pre_guardrailed : ExtractedMedicine) : MatchedMedicine :=
  ⟨0,
   (if pre_guardrailed.brand_name.isEmpty then "unknown".toList else pre_guardrailed.brand_name),
   orUnknown pre_guardrailed.generic_name,
   orUnknown pre_guardrailed.strength,
   orUnknown pre_guardrailed.form,
   false,
   0,
   "High".toList,
   "High".toList,
   true⟩

/-- The terminal branch of `extract_route` for one mention (routes.py lines
    60-129): sentinel no-match path, stale-id path, or grounded post-match path.
    Returns the mention's `MatchedMedicine` together with the appended item log. -/
def process_mention (pre_guardrailed : ExtractedMedicine) (top_candidate : CandidateMatch)
    (db : List MedicineRecord) (item_guardrail_logs : List Str) :
    MatchedMedicine × List Str :=
  if top_candidate.id = NO_MATCH_ID then
    let logs := item_guardrail_logs ++
      ["GUARDRAIL: No DB record found — returning VLM-grounded extraction; manual review required".toList]
    (vlmMatched pre_guardrailed,
     logs ++ ["Workflow completed: VLM-only payload — not grounded against SQLite ground truth".toList])
  else
    match get_medicine_by_id top_candidate.id db with
    | none =>
      let logs := item_guardrail_logs ++
        ["GUARDRAIL: Pinecone candidate id=".toList ++ (toString top_candidate.id).toList ++
          " not found in SQLite — falling back to VLM-only payload".toList]
      (vlmMatched pre_guardrailed,
       logs ++ ["Workflow completed: VLM-only payload — Pinecone/SQLite ID mismatch".toList])
    | some db_record =>
      let pair := apply_post_match_guardrails pre_guardrailed top_candidate db_record
        item_guardrail_logs
      (pair.1, pair.2 ++ ["Workflow completed: final grounded payload generated".toList])

/-! ## Spec-side definitions

These definitions transcribe the *claims'* wording (spec §4.4 step 2-3 and
§4.2 step 4) rather than the code, for the refinement-style comparisons. -/

/-- The record's implied variant: the first digit run of its `brand_name`
    (spec §4.4 step 2). -/
def impliedVariant (record : MedicineRecord) : Option Str :=
  match digitRuns record.brand_name with
  | [] => none
  | v :: _ => some v

/-- Spec §4.4 step 2, as worded in the claim: subtract 0.35 when the mention
    has a variant and the record's implied variant differs; subtract 0.15 when
    the mention has a variant and the record has none.  "Has a variant" means a
    non-empty variant token after trimming surrounding whitespace. -/
def specVariantPenalty (mention : ExtractedMedicine) (record : MedicineRecord) : ℚ :=
  let v := pyStrip ((mention.brand_variant).getD [])
  if v.isEmpty then 0
  else
    match impliedVariant record with
    | none => 0.15
    | some w => if v ≠ w then 0.35 else 0

/-- Spec §4.4 step 3, as worded in the claim: subtract 0.30 when both the
    mention's form and the record's form are present and differ
    case-insensitively; no penalty otherwise (in particular when the mention has
    a form but the record does not). -/
def specFormPenalty (mention : ExtractedMedicine) (record : MedicineRecord) : ℚ :=
  if truthy mention.form ∧ ¬ record.form.isEmpty ∧
      lowerStr ((mention.form).getD []) ≠ lowerStr record.form then 0.30
  else 0

/-- The search-term order as worded in claim C9 (spec §4.2 step 4), with no
    guard on the brand text: full lowercased brand, then the lowercased generic
    name, then each brand word-token longer than 3 characters. -/
def claimFallbackTerms (mention : ExtractedMedicine) : List Str :=
  [lowerStr mention.brand_name] ++
    (match mention.generic_name with
     | some g => [lowerStr g]
     | none => []) ++
    (pyWords (lowerStr mention.brand_name)).filter (fun t => t.length > 3)

/-- The local lexical fallback as worded in claim C9: try `claimFallbackTerms`
    in order; for each non-empty term return the first catalog record in
    ascending id order whose brand_name or generic_name contains the term, with
    the fixed tier score 0.78 and provenance recording the matched term and the
    fallback source; absence of any hit yields the sentinel. -/
def claimFallback (mention : ExtractedMedicine) (db : List MedicineRecord) :
    CandidateMatch :=
  match tryTerms db (claimFallbackTerms mention) with
  | some (medicine, term) =>
    ⟨medicine.id, 0.78,
      [("source".toList, "sqlite_fallback".toList), ("matched_term".toList, term)]⟩
  | none => ⟨NO_MATCH_ID, 0, [("source".toList, "vlm_only".toList)]⟩

/-- The amended search-term order: identical to `claimFallbackTerms` except
    that the full lowercased brand is only tried when the brand text is
    non-empty and does not equal "unknown" case-insensitively (the guard the
    code applies). -/
def amendedFallbackTerms (mention : ExtractedMedicine) : List Str :=
  (if ¬ mention.brand_name.isEmpty ∧ lowerStr mention.brand_name ≠ "unknown".toList then
    [lowerStr mention.brand_name] else []) ++
    (match mention.generic_name with
     | some g => [lowerStr g]
     | none => []) ++
    (pyWords (lowerStr mention.brand_name)).filter (fun t => t.length > 3)

/-- The local lexical fallback as amended: `amendedFallbackTerms`, first
    non-empty term with a hit wins, fixed tier score and provenance as in the
    claim. -/
def amendedFallback (mention : ExtractedMedicine) (db : List MedicineRecord) :
    CandidateMatch :=
  match tryTerms db (amendedFallbackTerms mention) with
  | some (medicine, term) =>
    ⟨medicine.id, 0.78,
      [("source".toList, "sqlite_fallback".toList), ("matched_term".toList, term)]⟩
  | none => ⟨NO_MATCH_ID, 0, [("source".toList, "vlm_only".toList)]⟩

/-! ## Helper lemmas on rounding and clamping -/

theorem roundHalfEven_nonneg {x : ℚ} (hx : 0 ≤ x) : 0 ≤ roundHalfEven x := by
  have hf : 0 ≤ ⌊x⌋ := Int.floor_nonneg.mpr hx
  simp only [roundHalfEven]
  split_ifs <;> omega

theorem roundHalfEven_le_of_le {x : ℚ} {n : ℤ} (hx : x ≤ n) : roundHalfEven x ≤ n := by
  have hf : ⌊x⌋ ≤ n := by
    have h1 := Int.floor_le_floor (α := ℚ) hx
    simpa using h1
  simp only [roundHalfEven]
  by_cases hr : x - ⌊x⌋ < 1/2
  · simp only [if_pos hr]
    exact hf
  · have hge : (1:ℚ)/2 ≤ x - ⌊x⌋ := not_lt.mp hr
    have hlt : ⌊x⌋ < n := by
      by_contra hcon
      have heq : (n:ℚ) ≤ (⌊x⌋:ℚ) := by exact_mod_cast not_lt.mp hcon
      have hxf : x ≤ (⌊x⌋:ℚ) := le_trans hx heq
      linarith
    simp only [if_neg hr]
    split_ifs <;> omega

theorem pyRound4_bounds {x : ℚ} (h0 : 0 ≤ x) (h1 : x ≤ 1) :
    0 ≤ pyRound4 x ∧ pyRound4 x ≤ 1 := by
  unfold pyRound4
  have ha : 0 ≤ x * 10000 := by positivity
  have hb : x * 10000 ≤ ((10000 : ℤ) : ℚ) := by push_cast; linarith
  have h2 := roundHalfEven_nonneg ha
  have h3 := roundHalfEven_le_of_le hb
  constructor
  · apply div_nonneg _ (by norm_num)
    exact_mod_cast h2
  · rw [div_le_one (by norm_num)]
    exact_mod_cast h3

theorem clamp01_bounds (s : ℚ) : 0 ≤ max 0 (min 1 s) ∧ max 0 (min 1 s) ≤ 1 :=
  ⟨le_max_left 0 (min 1 s), max_le (by norm_num) (min_le_left 1 s)⟩

/-! ## Claim theorems -/

/-- Claim C4: for every clamped final score, risk classification is by the
    fixed thresholds: score ≥ 0.85 yields High with no manual review;
    0.65 ≤ score < 0.85 yields Medium with no manual review; score < 0.65
    yields Low with manual review required. -/
theorem c4_risk_thresholds (s : ℚ) :
    (0.85 ≤ s → _classify_risk s = ("High".toList, false)) ∧
    (0.65 ≤ s ∧ s < 0.85 → _classify_risk s = ("Medium".toList, false)) ∧
    (s < 0.65 → _classify_risk s = ("Low".toList, true)) := by
  unfold _classify_risk
  refine ⟨fun h => ?_, fun h => ?_, fun h => ?_⟩
  · rw [if_pos h]
  · rw [if_neg (by exact not_le.mpr h.2), if_pos h.1]
  · rw [if_neg (by exact not_le.mpr (by linarith)), if_neg (by exact not_le.mpr h)]

/-- Witness for C4: the three threshold branches at concrete scores. -/
theorem c4_risk_thresholds_witness :
    _classify_risk 0.9 = ("High".toList, false) ∧
    _classify_risk 0.7 = ("Medium".toList, false) ∧
    _classify_risk 0.2 = ("Low".toList, true) :=
  ⟨(c4_risk_thresholds 0.9).1 (by norm_num),
   (c4_risk_thresholds 0.7).2.1 (by norm_num),
   (c4_risk_thresholds 0.2).2.2 (by norm_num)⟩

/-- Claim C10: the post-match result's `official_strength` always equals the
    catalog record's `official_strength`; the mention's AI-derived strength
    never influences the output (the whole result is invariant under changing
    it); and the two risk fields are always equal. -/
theorem c10_authority_override (extracted : ExtractedMedicine) (candidate : CandidateMatch)
    (db_record : MedicineRecord) (logs : List Str) :
    (apply_post_match_guardrails extracted candidate db_record logs).1.official_strength =
      db_record.official_strength ∧
    (apply_post_match_guardrails extracted candidate db_record logs).1.risk_classification =
      (apply_post_match_guardrails extracted candidate db_record logs).1.clinical_risk_tier ∧
    ∀ s', apply_post_match_guardrails { extracted with strength := s' } candidate db_record
        logs = apply_post_match_guardrails extracted candidate db_record logs :=
  ⟨rfl, rfl, fun _ => rfl⟩

/-- Counterexample to claim C2 as stated: an explicitly supplied empty-string
    dosage variant is non-null, yet the normalizer keeps the mention's strength
    (the code tests Python truthiness, not nullness). -/
theorem c2_variant_strength_cex :
    ((apply_pre_match_guardrails
        ⟨[], "amoxiclav".toList, some [], none, some "500 mg".toList, none, none⟩
        []).1.brand_variant ≠ none) ∧
    ((apply_pre_match_guardrails
        ⟨[], "amoxiclav".toList, some [], none, some "500 mg".toList, none, none⟩
        []).1.strength ≠ none) := by
  exact ⟨by decide, by decide⟩

/-- Claim C2 as amended: if the normalized mention's dosage variant is non-null
    and non-empty (whether supplied explicitly or promoted from the first digit
    run of the brand text), its strength field is null. -/
theorem c2_variant_strength_amended (extracted : ExtractedMedicine) (logs : List Str)
    (v : Str) (h1 : (apply_pre_match_guardrails extracted logs).1.brand_variant = some v)
    (h2 : v ≠ []) :
    (apply_pre_match_guardrails extracted logs).1.strength = none := by
  simp only [apply_pre_match_guardrails] at h1 ⊢
  rw [h1]
  cases v with
  | nil => exact absurd rfl h2
  | cons a t => rfl

/-- Witness for C2 (amended): a mention with an explicit non-empty variant and
    a supplied strength comes out with a null strength. -/
theorem c2_variant_strength_amended_witness :
    (apply_pre_match_guardrails
        ⟨[], "amoxiclav".toList, some "625".toList, none, some "500 mg".toList, none, none⟩
        []).1.brand_variant = some "625".toList ∧
    (apply_pre_match_guardrails
        ⟨[], "amoxiclav".toList, some "625".toList, none, some "500 mg".toList, none, none⟩
        []).1.strength = none :=
  ⟨by decide,
   c2_variant_strength_amended
     ⟨[], "amoxiclav".toList, some "625".toList, none, some "500 mg".toList, none, none⟩
     [] "625".toList (by decide) (by decide)⟩

/-- A sample mention used by closed witness/counterexample theorems. -/
def mention0 : ExtractedMedicine :=
  ⟨[], "amoxiclav".toList, none, none, none, none, none⟩

/-- A sample catalog record used by closed witness theorems. -/
def record1 : MedicineRecord :=
  ⟨1, "Panadol 500mg".toList, "paracetamol".toList, "500 mg".toList, "tablet".toList, false⟩

/-- The grounded post-match result is, in its score and risk fields, the
    clamp-round-classify of some running score. -/
theorem apply_post_match_fields (e : ExtractedMedicine) (c : CandidateMatch)
    (r : MedicineRecord) (logs : List Str) :
    ∃ s : ℚ,
      (apply_post_match_guardrails e c r logs).1.final_similarity_score =
        pyRound4 (max 0 (min 1 s)) ∧
      (apply_post_match_guardrails e c r logs).1.risk_classification =
        (_classify_risk (max 0 (min 1 s))).1 ∧
      (apply_post_match_guardrails e c r logs).1.clinical_risk_tier =
        (_classify_risk (max 0 (min 1 s))).1 ∧
      (apply_post_match_guardrails e c r logs).1.manual_review_required =
        (_classify_risk (max 0 (min 1 s))).2 := by
  refine ⟨_, rfl, rfl, rfl, rfl⟩

/-- The classifier's manual-review flag is set exactly on the Low tier. -/
theorem classify_manual_iff_low (t : ℚ) :
    (_classify_risk t).2 = true ↔ (_classify_risk t).1 = "Low".toList := by
  unfold _classify_risk
  split_ifs <;> decide

/-- The classifier only ever emits the three tiers. -/
theorem classify_mem (t : ℚ) :
    (_classify_risk t).1 = "High".toList ∨ (_classify_risk t).1 = "Medium".toList ∨
      (_classify_risk t).1 = "Low".toList := by
  unfold _classify_risk
  split_ifs <;> simp

/-- Counterexample to claim C1 as stated: on the sentinel no-match terminal
    path the result has `manual_review_required = true` while its risk tier is
    High, not Low — so `manual_review_required ↔ (risk tier = Low)` fails. -/
theorem c1_terminal_paths_cex :
    (process_mention mention0 ⟨-1, 0, []⟩ [] []).1.manual_review_required = true ∧
    (process_mention mention0 ⟨-1, 0, []⟩ [] []).1.risk_classification ≠ "Low".toList := by
  exact ⟨by decide, by decide⟩

/-- Claim C1 as amended: on every terminal path the final similarity score lies
    in [0,1] and the risk tier is one of High/Medium/Low; on the grounded path
    `manual_review_required ↔ (risk tier = Low)`; on the sentinel and stale-id
    paths the result is forced to `manual_review_required = true` with risk tier
    High. -/
theorem c1_terminal_paths_wellformed (pre : ExtractedMedicine) (cand : CandidateMatch)
    (db : List MedicineRecord) (logs : List Str) :
    (0 ≤ (process_mention pre cand db logs).1.final_similarity_score ∧
      (process_mention pre cand db logs).1.final_similarity_score ≤ 1) ∧
    ((process_mention pre cand db logs).1.risk_classification = "High".toList ∨
      (process_mention pre cand db logs).1.risk_classification = "Medium".toList ∨
      (process_mention pre cand db logs).1.risk_classification = "Low".toList) ∧
    (∀ rec, cand.id ≠ NO_MATCH_ID → get_medicine_by_id cand.id db = some rec →
      ((process_mention pre cand db logs).1.manual_review_required = true ↔
        (process_mention pre cand db logs).1.risk_classification = "Low".toList)) ∧
    ((cand.id = NO_MATCH_ID ∨ get_medicine_by_id cand.id db = none) →
      (process_mention pre cand db logs).1.manual_review_required = true ∧
        (process_mention pre cand db logs).1.risk_classification = "High".toList) := by
  by_cases hid : cand.id = NO_MATCH_ID
  · simp only [process_mention, if_pos hid]
    exact ⟨⟨by norm_num [vlmMatched], by norm_num [vlmMatched]⟩, Or.inl rfl,
      fun rec hne _ => absurd hid hne, fun _ => ⟨rfl, rfl⟩⟩
  · cases hdb : get_medicine_by_id cand.id db with
    | none =>
      simp only [process_mention, if_neg hid, hdb]
      exact ⟨⟨by norm_num [vlmMatched], by norm_num [vlmMatched]⟩, Or.inl rfl,
        fun rec _ hsome => absurd hsome (by simp), fun _ => ⟨rfl, rfl⟩⟩
    | some rec =>
      simp only [process_mention, if_neg hid, hdb]
      obtain ⟨s, h1, h2, _, h4⟩ := apply_post_match_fields pre cand rec logs
      have hc := clamp01_bounds s
      have hb := pyRound4_bounds hc.1 hc.2
      refine ⟨⟨by rw [h1]; exact hb.1, by rw [h1]; exact hb.2⟩, ?_, ?_, ?_⟩
      · rw [h2]; exact classify_mem _
      · intro r _ _
        rw [h2, h4]
        exact classify_manual_iff_low _
      · intro hor
        rcases hor with h | h
        · exact absurd h hid
        · exact absurd h (by simp)

/-- Witness for C1 (amended): the three terminal paths at concrete inputs —
    sentinel candidate, stale candidate id over an empty catalog, and a grounded
    candidate resolving to a concrete record. -/
theorem c1_terminal_paths_wellformed_witness :
    ((process_mention mention0 ⟨-1, 0, []⟩ [] []).1.manual_review_required = true ∧
      (process_mention mention0 ⟨-1, 0, []⟩ [] []).1.risk_classification = "High".toList) ∧
    ((process_mention mention0 ⟨7, 0, []⟩ [] []).1.manual_review_required = true ∧
      (process_mention mention0 ⟨7, 0, []⟩ [] []).1.risk_classification = "High".toList) ∧
    ((process_mention mention0 ⟨1, 0.9, []⟩ [record1] []).1.manual_review_required = true ↔
      (process_mention mention0 ⟨1, 0.9, []⟩ [record1] []).1.risk_classification =
        "Low".toList) :=
  ⟨(c1_terminal_paths_wellformed mention0 ⟨-1, 0, []⟩ [] []).2.2.2 (Or.inl rfl),
   (c1_terminal_paths_wellformed mention0 ⟨7, 0, []⟩ [] []).2.2.2 (Or.inr rfl),
   (c1_terminal_paths_wellformed mention0 ⟨1, 0.9, []⟩ [record1] []).2.2.1 record1
     (by decide) rfl⟩

/-- Claim C7: the sentinel no-match path and the stale-id path both produce the
    same well-formed degraded `MatchedMedicine` — `manual_review_required =
    true`, `final_similarity_score = 0`, and id 0, which is not a valid catalog
    id (catalog ids are positive) — and the two paths differ in a
    distinguishing audit-log entry. -/
theorem c7_degraded_paths (pre : ExtractedMedicine) (cand1 cand2 : CandidateMatch)
    (db : List MedicineRecord) (logs1 logs2 : List Str)
    (h1 : cand1.id = NO_MATCH_ID) (h2 : cand2.id ≠ NO_MATCH_ID)
    (h3 : get_medicine_by_id cand2.id db = none) :
    (process_mention pre cand1 db logs1).1 = (process_mention pre cand2 db logs2).1 ∧
    (process_mention pre cand1 db logs1).1.manual_review_required = true ∧
    (process_mention pre cand1 db logs1).1.final_similarity_score = 0 ∧
    (process_mention pre cand1 db logs1).1.id = 0 ∧
    (∀ i : Int, 0 < i → (process_mention pre cand1 db logs1).1.id ≠ i) ∧
    (process_mention pre cand1 db logs1).2 = logs1 ++
      ["GUARDRAIL: No DB record found — returning VLM-grounded extraction; manual review required".toList,
       "Workflow completed: VLM-only payload — not grounded against SQLite ground truth".toList] ∧
    (process_mention pre cand2 db logs2).2 = logs2 ++
      ["GUARDRAIL: Pinecone candidate id=".toList ++ (toString cand2.id).toList ++
         " not found in SQLite — falling back to VLM-only payload".toList,
       "Workflow completed: VLM-only payload — Pinecone/SQLite ID mismatch".toList] ∧
    ("Workflow completed: VLM-only payload — not grounded against SQLite ground truth".toList ≠
       "Workflow completed: VLM-only payload — Pinecone/SQLite ID mismatch".toList) := by
  have e1 : process_mention pre cand1 db logs1 =
      (vlmMatched pre,
        (logs1 ++
          ["GUARDRAIL: No DB record found — returning VLM-grounded extraction; manual review required".toList]) ++
          ["Workflow completed: VLM-only payload — not grounded against SQLite ground truth".toList]) := by
    simp only [process_mention, if_pos h1]
  have e2 : process_mention pre cand2 db logs2 =
      (vlmMatched pre,
        (logs2 ++
          ["GUARDRAIL: Pinecone candidate id=".toList ++ (toString cand2.id).toList ++
            " not found in SQLite — falling back to VLM-only payload".toList]) ++
          ["Workflow completed: VLM-only payload — Pinecone/SQLite ID mismatch".toList]) := by
    simp only [process_mention, if_neg h2, h3]
  rw [e1, e2]
  refine ⟨rfl, rfl, rfl, rfl, ?_, by simp, by simp, by decide⟩
  intro i hi
  simp only [vlmMatched]
  omega

/-- Witness for C7: the sentinel and stale-id paths agree at concrete inputs. -/
theorem c7_degraded_paths_witness :
    (process_mention mention0 ⟨-1, 0, []⟩ [] []).1 =
      (process_mention mention0 ⟨7, 0, []⟩ [] []).1 :=
  (c7_degraded_paths mention0 ⟨-1, 0, []⟩ ⟨7, 0, []⟩ [] [] [] rfl (by decide) rfl).1

/-- Claim C6: the History Re-ranker passes the candidate through unchanged when
    the requester identity is absent (null or empty) or no historical mapping
    exists; otherwise it returns the same id and metadata with
    `new_score = min 1 (old_score + min 0.15 (0.03 * mapping_count))`, which for
    `mapping_count ≥ 0` (and an in-range old score) never decreases the score
    and never exceeds 1. -/
theorem c6_prescriber_prior (cand : CandidateMatch) (hist : Str → Int → Option ℤ)
    (logs : List Str) :
    ((_apply_prescriber_prior cand none hist logs).1 = cand) ∧
    (∀ p, p = [] ∨ hist p cand.id = none →
      (_apply_prescriber_prior cand (some p) hist logs).1 = cand) ∧
    (∀ p m, p ≠ [] → hist p cand.id = some m →
      (_apply_prescriber_prior cand (some p) hist logs).1 =
        ⟨cand.id, min 1 (cand.score + min 0.15 (0.03 * (m : ℚ))), cand.metadata⟩ ∧
      ((0:ℤ) ≤ m → cand.score ≤ 1 →
        cand.score ≤ ((_apply_prescriber_prior cand (some p) hist logs).1).score) ∧
      ((_apply_prescriber_prior cand (some p) hist logs).1).score ≤ 1) := by
  have hmain : ∀ p m, p ≠ [] → hist p cand.id = some m →
      (_apply_prescriber_prior cand (some p) hist logs).1 =
        ⟨cand.id, min 1 (cand.score + min 0.15 (0.03 * (m : ℚ))), cand.metadata⟩ := by
    intro p m hpne hm
    have hpe : p.isEmpty = false := by
      cases p with
      | nil => exact absurd rfl hpne
      | cons a t => rfl
    simp [_apply_prescriber_prior, hpe, hm]
  refine ⟨rfl, ?_, ?_⟩
  · intro p hp
    rcases hp with hp | hp
    · subst hp
      rfl
    · cases p with
      | nil => rfl
      | cons a t => simp [_apply_prescriber_prior, hp]
  · intro p m hpne hm
    refine ⟨hmain p m hpne hm, ?_, ?_⟩
    · intro hm0 hs1
      rw [hmain p m hpne hm]
      have hb : (0:ℚ) ≤ min 0.15 (0.03 * (m : ℚ)) := by
        have hm0q : (0:ℚ) ≤ (m : ℚ) := by exact_mod_cast hm0
        exact le_min (by norm_num) (by positivity)
      exact le_min hs1 (by linarith)
    · rw [hmain p m hpne hm]
      exact min_le_left 1 _

/-- Witness for C6: a base score of 0.78 with 4 prior historical mappings is
    boosted to exactly 0.90; an absent identity and a missing mapping pass the
    candidate through unchanged. -/
theorem c6_prescriber_prior_witness :
    ((_apply_prescriber_prior ⟨5, 0.78, []⟩ (some "dr1".toList)
        (fun _ _ => some 4) []).1 : CandidateMatch) =
      ⟨5, 0.9, []⟩ ∧
    (_apply_prescriber_prior ⟨5, 0.78, []⟩ none (fun _ _ => some 4) []).1 =
      ⟨5, 0.78, []⟩ ∧
    (_apply_prescriber_prior ⟨5, 0.78, []⟩ (some "dr1".toList) (fun _ _ => none) []).1 =
      ⟨5, 0.78, []⟩ := by
  have h := (c6_prescriber_prior ⟨5, 0.78, []⟩ (fun _ _ => some 4) []).2.2
    "dr1".toList 4 (by decide) rfl
  refine ⟨?_, (c6_prescriber_prior ⟨5, 0.78, []⟩ (fun _ _ => some 4) []).1,
    (c6_prescriber_prior ⟨5, 0.78, []⟩ (fun _ _ => none) []).2.1 "dr1".toList
      (Or.inr rfl)⟩
  rw [h.1]
  have : min (1:ℚ) ((0.78 : ℚ) + min 0.15 (0.03 * ((4:ℤ) : ℚ))) = 0.9 := by norm_num
  rw [this]

theorem digitRuns_ne_nil_aux :
    ∀ (n : ℕ) (s : Str), s.length ≤ n → ∀ run ∈ digitRuns s, run ≠ [] := by
  intro n
  induction n with
  | zero =>
    intro s hs run hr
    rw [List.length_eq_zero.mp (Nat.le_zero.mp hs)] at hr
    simp [digitRuns] at hr
  | succ n ih =>
    intro s hs run hr
    cases s with
    | nil => simp [digitRuns] at hr
    | cons c cs =>
      have hcs : cs.length ≤ n := by
        simp only [List.length_cons] at hs
        omega
      by_cases hc : isDigitC c
      · rw [digitRuns_cons_digit c cs hc] at hr
        rcases List.mem_cons.mp hr with h | h
        · subst h; simp
        · exact ih (cs.dropWhile isDigitC)
            (le_trans (lenDropWhile_le isDigitC cs) hcs) run h
      · have e1 : digitRuns (c :: cs) = digitRuns cs := by
          cases cs with
          | nil => simp [digitRuns, hc]
          | cons d cs2 => simp [digitRuns, hc]
        rw [e1] at hr
        exact ih cs hcs run hr

/-- Every digit run produced by `digitRuns` is non-empty. -/
theorem digitRuns_ne_nil (s : Str) : ∀ run ∈ digitRuns s, run ≠ [] :=
  digitRuns_ne_nil_aux s.length s le_rfl

/-- The variant-penalty branch of the post-match engine computes the claim's
    variant penalty. -/
theorem variant_ite_eq (e : ExtractedMedicine) (r : MedicineRecord) (s : ℚ) :
    (if ¬ (pyStrip ((e.brand_variant).getD [])).isEmpty ∧
        ¬ ((digitRuns r.brand_name).headD []).isEmpty ∧
        pyStrip ((e.brand_variant).getD []) ≠ (digitRuns r.brand_name).headD [] then
      s - 0.35
    else if ¬ (pyStrip ((e.brand_variant).getD [])).isEmpty ∧
        ((digitRuns r.brand_name).headD []).isEmpty then
      s - 0.15
    else s) = s - specVariantPenalty e r := by
  cases hdr : digitRuns r.brand_name with
  | nil =>
    have hspec : specVariantPenalty e r =
        if (pyStrip ((e.brand_variant).getD [])).isEmpty then 0 else 0.15 := by
      simp [specVariantPenalty, impliedVariant, hdr]
    rw [hspec]
    simp only [List.headD_nil]
    by_cases hve : (pyStrip ((e.brand_variant).getD [])).isEmpty
    · rw [if_neg (by simp [hve]), if_neg (by simp [hve]), if_pos hve]
      ring
    · rw [if_neg (by simp), if_pos ⟨hve, rfl⟩, if_neg hve]
  | cons a t =>
    have ha : a ≠ [] :=
      digitRuns_ne_nil r.brand_name a (by rw [hdr]; exact List.mem_cons_self a t)
    have hae : a.isEmpty = false := by
      cases a with
      | nil => exact absurd rfl ha
      | cons x xs => rfl
    have hspec : specVariantPenalty e r =
        if (pyStrip ((e.brand_variant).getD [])).isEmpty then 0
        else if pyStrip ((e.brand_variant).getD []) ≠ a then 0.35 else 0 := by
      simp [specVariantPenalty, impliedVariant, hdr]
    rw [hspec]
    simp only [List.headD_cons]
    by_cases hve : (pyStrip ((e.brand_variant).getD [])).isEmpty
    · rw [if_neg (by simp [hve]), if_neg (by simp [hve]), if_pos hve]
      ring
    · by_cases hne : pyStrip ((e.brand_variant).getD []) = a
      · rw [if_neg (by simp [hne]), if_neg (by simp [hae]), if_neg hve,
          if_neg (by simp [hne])]
        ring
      · rw [if_pos ⟨hve, by simp [hae], hne⟩, if_neg hve, if_pos hne]

/-- The form-penalty branch of the post-match engine computes the claim's form
    penalty (the skip branch applies no penalty). -/
theorem form_ite_eq (e : ExtractedMedicine) (r : MedicineRecord) (s : ℚ) :
    (if truthy e.form ∧ ¬ (lowerStr r.form).isEmpty ∧
        lowerStr ((e.form).getD []) ≠ lowerStr r.form then
      s - 0.30
    else if truthy e.form ∧ (lowerStr r.form).isEmpty then s
    else s) = s - specFormPenalty e r := by
  unfold specFormPenalty
  have hle : (lowerStr r.form).isEmpty = r.form.isEmpty := by
    cases r.form with
    | nil => rfl
    | cons x xs => rfl
  simp only [hle]
  by_cases h : truthy e.form = true ∧ ¬ r.form.isEmpty = true ∧
      lowerStr ((e.form).getD []) ≠ lowerStr r.form
  · rw [if_pos h, if_pos h]
  · rw [if_neg h, if_neg h]
    split_ifs <;> ring

/-- Claim C3: for every normalized mention, candidate and resolved catalog
    record, the post-match score starts from the candidate score and subtracts
    exactly the claim's variant penalty (0.35 on a differing implied variant,
    0.15 when the record has no digit run) and form penalty (0.30 on a
    case-insensitive form mismatch; no penalty when the record lacks a form),
    before the final clamp and rounding. -/
theorem c3_post_match_score_arithmetic (e : ExtractedMedicine) (c : CandidateMatch)
    (r : MedicineRecord) (logs : List Str) :
    (apply_post_match_guardrails e c r logs).1.final_similarity_score =
      pyRound4 (max 0 (min 1 (c.score - specVariantPenalty e r - specFormPenalty e r))) := by
  simp only [apply_post_match_guardrails, apply_ite (@Prod.fst ℚ (List Str))]
  rw [variant_ite_eq e r c.score, form_ite_eq e r (c.score - specVariantPenalty e r)]

/-- The record predicate used by one fallback search term. -/
def termPred (term : Str) : MedicineRecord → Bool :=
  fun rec => ilikeContains rec.brand_name term || ilikeContains rec.generic_name term

theorem tryTerms_skip (db : List MedicineRecord) (l r : List Str) (a : Str)
    (ha : a = [] ∨ selectFirstByIdWhere db (termPred a) = none) :
    tryTerms db (l ++ a :: r) = tryTerms db (l ++ r) := by
  induction l with
  | nil =>
    simp only [List.nil_append]
    rcases ha with ha | ha
    · subst ha
      simp [tryTerms]
    · by_cases hae : a.isEmpty
      · simp [tryTerms, hae]
      · simp only [tryTerms]
        rw [if_neg hae]
        unfold termPred at ha
        rw [ha]
  | cons t l2 ih =>
    simp only [List.cons_append, tryTerms]
    by_cases hte : t.isEmpty
    · rw [if_pos hte, if_pos hte]
      exact ih
    · rw [if_neg hte, if_neg hte]
      cases hsel : selectFirstByIdWhere db
          (fun rec => ilikeContains rec.brand_name t || ilikeContains rec.generic_name t) with
      | some med => rfl
      | none => exact ih

theorem tryTerms_dup (db : List MedicineRecord) (l r : List Str) (t : Str) :
    t ∈ l → tryTerms db (l ++ t :: r) = tryTerms db (l ++ r) := by
  induction l with
  | nil =>
    intro ht
    exact absurd ht (List.not_mem_nil t)
  | cons a l2 ih =>
    intro ht
    simp only [List.cons_append, tryTerms]
    by_cases hae : a.isEmpty
    · rw [if_pos hae, if_pos hae]
      rcases List.mem_cons.mp ht with h | h
      · subst h
        refine tryTerms_skip db l2 r t (Or.inl ?_)
        cases t with
        | nil => rfl
        | cons x xs => exact absurd hae (by simp)
      · exact ih h
    · rw [if_neg hae, if_neg hae]
      cases hsel : selectFirstByIdWhere db
          (fun rec => ilikeContains rec.brand_name a || ilikeContains rec.generic_name a) with
      | some med => rfl
      | none =>
        rcases List.mem_cons.mp ht with h | h
        · subst h
          exact tryTerms_skip db l2 r t (Or.inr hsel)
        · exact ih h

theorem tryTerms_tokenLoop (db : List MedicineRecord) (toks : List Str) :
    ∀ acc, tryTerms db (tokenLoop acc toks) =
      tryTerms db (acc ++ toks.filter (fun t => t.length > 3)) := by
  induction toks with
  | nil => intro acc; simp [tokenLoop]
  | cons t ts ih =>
    intro acc
    by_cases hkeep : t.length > 3 ∧ t ∉ acc
    · have e1 : tokenLoop acc (t :: ts) = tokenLoop (acc ++ [t]) ts := by
        simp [tokenLoop, hkeep]
      rw [e1, ih (acc ++ [t])]
      have e2 : (t :: ts).filter (fun u => u.length > 3) =
          t :: ts.filter (fun u => u.length > 3) := by
        simp [List.filter_cons, hkeep.1]
      rw [e2]
      simp [List.append_assoc]
    · have e1 : tokenLoop acc (t :: ts) = tokenLoop acc ts := by
        simp only [tokenLoop, if_neg hkeep]
      rw [e1, ih acc]
      by_cases hlen : t.length > 3
      · have hmem : t ∈ acc := by
          by_contra hnm
          exact hkeep ⟨hlen, hnm⟩
        have e2 : (t :: ts).filter (fun u => u.length > 3) =
            t :: ts.filter (fun u => u.length > 3) := by
          simp [List.filter_cons, hlen]
        rw [e2, tryTerms_dup db acc (ts.filter (fun u => u.length > 3)) t hmem]
      · have e2 : (t :: ts).filter (fun u => u.length > 3) =
            ts.filter (fun u => u.length > 3) := by
          simp [List.filter_cons, hlen]
        rw [e2]

/-- Counterexample to claim C9 as stated: for the brand text "unknown" the code
    skips the full-brand term (its guard `brand.lower() != "unknown"`), so the
    generic term is tried first and a different record wins than the order the
    claim mandates. -/
theorem c9_fallback_cex :
    (_local_sqlite_fallback
        ⟨[], "unknown".toList, none, some "paracetamol".toList, none, none, none⟩
        [⟨1, "Unknown Tonic".toList, "herbal".toList, "5 ml".toList, "syrup".toList, false⟩,
         ⟨2, "Crocin".toList, "Paracetamol".toList, "500 mg".toList, "tablet".toList, false⟩]).id
      = 2 ∧
    (claimFallback
        ⟨[], "unknown".toList, none, some "paracetamol".toList, none, none, none⟩
        [⟨1, "Unknown Tonic".toList, "herbal".toList, "5 ml".toList, "syrup".toList, false⟩,
         ⟨2, "Crocin".toList, "Paracetamol".toList, "500 mg".toList, "tablet".toList, false⟩]).id
      = 1 ∧
    (2 : Int) ≠ 1 := by
  exact ⟨by decide, by decide, by decide⟩

/-- Claim C9 as amended: the local fallback realises exactly the claim's
    term-by-term first-hit search — full lowercased brand (except when the brand
    is empty or equals "unknown" case-insensitively, which the code skips), then
    the lowercased generic name, then each brand word-token longer than 3
    characters — returning the least-id containing record with the fixed tier
    score 0.78 and provenance (source, matched term), and the sentinel when no
    term hits. -/
theorem c9_fallback_amended (m : ExtractedMedicine) (db : List MedicineRecord) :
    _local_sqlite_fallback m db = amendedFallback m db := by
  unfold _local_sqlite_fallback amendedFallback
  suffices h : tryTerms db (fallbackSearchTerms m) = tryTerms db (amendedFallbackTerms m) by
    rw [h]
  unfold fallbackSearchTerms amendedFallbackTerms
  cases hg : m.generic_name with
  | none =>
    rw [tryTerms_tokenLoop db (pyWords (lowerStr m.brand_name))]
  | some g =>
    cases g with
    | nil =>
      dsimp only
      rw [tryTerms_tokenLoop db (pyWords (lowerStr m.brand_name))]
      have e3 : (if ([] : Str).isEmpty = true then ([] : List Str) else [lowerStr []]) =
          ([] : List Str) := rfl
      have e2 : lowerStr [] = ([] : Str) := rfl
      rw [e3, e2, List.append_nil, List.append_assoc, List.singleton_append]
      exact (tryTerms_skip db _ _ [] (Or.inl rfl)).symm
    | cons gc gt =>
      dsimp only
      rw [tryTerms_tokenLoop db (pyWords (lowerStr m.brand_name))]
      have e4 : (if (gc :: gt : Str).isEmpty = true then ([] : List Str)
          else [lowerStr (gc :: gt)]) = [lowerStr (gc :: gt)] := rfl
      rw [e4]

/-- The candidate returned by the History Re-ranker does not depend on the
    incoming audit log. -/
theorem prior_fst_log_indep (cand : CandidateMatch) (pid : Option Str)
    (hist : Str → Int → Option ℤ) (logs1 logs2 : List Str) :
    (_apply_prescriber_prior cand pid hist logs1).1 =
      (_apply_prescriber_prior cand pid hist logs2).1 := by
  cases pid with
  | none => rfl
  | some p =>
    by_cases hpe : p.isEmpty
    · simp [_apply_prescriber_prior, hpe]
    · cases hm : hist p cand.id with
      | none => simp [_apply_prescriber_prior, hpe, hm]
      | some m => simp [_apply_prescriber_prior, hpe, hm]

theorem tryTerms_none (db : List MedicineRecord) (ts : List Str)
    (h : ∀ term ∈ ts, selectFirstByIdWhere db (termPred term) = none) :
    tryTerms db ts = none := by
  induction ts with
  | nil => rfl
  | cons t ts2 ih =>
    simp only [tryTerms]
    by_cases hte : t.isEmpty
    · rw [if_pos hte]
      exact ih (fun u hu => h u (List.mem_cons_of_mem t hu))
    · rw [if_neg hte]
      have ht := h t (List.mem_cons_self t ts2)
      unfold termPred at ht
      rw [ht]
      exact ih (fun u hu => h u (List.mem_cons_of_mem t hu))

/-- Claim C8: the Candidate Retriever is total — every vector-tier failure mode
    (missing SDK/config, a raised exception, an empty result, or a stale id
    that no longer resolves in the catalog) degrades to the local lexical
    fallback instead of surfacing an error, and a complete absence of any match
    is returned as the sentinel `CandidateMatch` with id -1 and score 0 (under
    a history store that never references the sentinel id). -/
theorem c8_retrieval_totality (e : ExtractedMedicine) (db : List MedicineRecord)
    (pid : Option Str) (hist : Str → Int → Option ℤ) (da sa : Bool)
    (logs : List Str) :
    (∀ oc : VectorTierOutcome,
      oc = VectorTierOutcome.unavailable ∨ oc = VectorTierOutcome.raised ∨
        oc = VectorTierOutcome.noMatches →
      (query_top_candidate oc e db pid hist da sa logs).1 =
        (_apply_prescriber_prior (_local_sqlite_fallback e db) pid hist []).1) ∧
    (∀ (i : Int) (sc : ℚ) (meta : List (Str × Str)), get_medicine_by_id i db = none →
      (query_top_candidate (VectorTierOutcome.topMatch i sc meta) e db pid hist da sa
          logs).1 =
        (_apply_prescriber_prior (_local_sqlite_fallback e db) pid hist []).1) ∧
    ((∀ term ∈ fallbackSearchTerms e, selectFirstByIdWhere db (termPred term) = none) →
      (∀ p, hist p NO_MATCH_ID = none) →
      ∀ oc : VectorTierOutcome,
        oc = VectorTierOutcome.unavailable ∨ oc = VectorTierOutcome.raised ∨
          oc = VectorTierOutcome.noMatches →
        (query_top_candidate oc e db pid hist da sa logs).1 =
          ⟨NO_MATCH_ID, 0, [("source".toList, "vlm_only".toList)]⟩) := by
  have hfb : ∀ logs2, (fallbackSelection e db pid hist logs2).1 =
      (_apply_prescriber_prior (_local_sqlite_fallback e db) pid hist []).1 := by
    intro logs2
    exact prior_fst_log_indep _ _ _ _ _
  have hpart1 : ∀ oc : VectorTierOutcome,
      oc = VectorTierOutcome.unavailable ∨ oc = VectorTierOutcome.raised ∨
        oc = VectorTierOutcome.noMatches →
      (query_top_candidate oc e db pid hist da sa logs).1 =
        (_apply_prescriber_prior (_local_sqlite_fallback e db) pid hist []).1 := by
    intro oc hoc
    rcases hoc with h | h | h <;> subst h <;> exact hfb _
  refine ⟨hpart1, ?_, ?_⟩
  · intro i sc meta hi
    show (match get_medicine_by_id i db with
      | some _ => _
      | none => fallbackSelection e db pid hist _).1 =
        (_apply_prescriber_prior (_local_sqlite_fallback e db) pid hist []).1
    rw [hi]
    exact hfb _
  · intro habs hsent oc hoc
    rw [hpart1 oc hoc]
    have hsentinel : _local_sqlite_fallback e db =
        ⟨NO_MATCH_ID, 0, [("source".toList, "vlm_only".toList)]⟩ := by
      unfold _local_sqlite_fallback
      rw [tryTerms_none db (fallbackSearchTerms e) habs]
    rw [hsentinel]
    cases pid with
    | none => rfl
    | some p =>
      by_cases hpe : p.isEmpty
      · simp [_apply_prescriber_prior, hpe]
      · simp [_apply_prescriber_prior, hpe, hsent p]

/-- Witness for C8: a raised vector-tier call over an empty catalog and an
    empty history store yields exactly the sentinel candidate. -/
theorem c8_retrieval_totality_witness :
    (query_top_candidate VectorTierOutcome.raised mention0 [] none (fun _ _ => none)
        false false []).1 =
      ⟨NO_MATCH_ID, 0, [("source".toList, "vlm_only".toList)]⟩ :=
  (c8_retrieval_totality mention0 [] none (fun _ _ => none) false false []).2.2
    (fun term _ => rfl) (fun p => rfl) VectorTierOutcome.raised (Or.inr (Or.inl rfl))

/-! ## Character-class facts for the normalizer proofs -/

theorem char_eq_iff_toNat (a b : Char) : a = b ↔ a.toNat = b.toNat :=
  ⟨fun h => by rw [h], fun h => Char.ext (UInt32.ext h)⟩

theorem char_le_iff_toNat (a b : Char) : a ≤ b ↔ a.toNat ≤ b.toNat := Iff.rfl

theorem toNat_ofNat_valid (n : ℕ) (h1 : n < 55296) : (Char.ofNat n).toNat = n := by
  rw [Char.ofNat, dif_pos (Or.inl h1)]
  simp [Char.ofNatAux, Char.toNat, UInt32.toNat, BitVec.toNat_ofNatLt]

theorem lowerChar_toNat (c : Char) :
    (lowerChar c).toNat = if 65 ≤ c.toNat ∧ c.toNat ≤ 90 then c.toNat + 32 else c.toNat := by
  unfold lowerChar
  by_cases h : 'A' ≤ c ∧ c ≤ 'Z'
  · have h1 : 65 ≤ c.toNat := h.1
    have h2 : c.toNat ≤ 90 := h.2
    rw [if_pos h, if_pos ⟨h1, h2⟩]
    exact toNat_ofNat_valid (c.toNat + 32) (by omega)
  · rw [if_neg h, if_neg (fun hc => h ⟨hc.1, hc.2⟩)]

theorem pyIsSpace_iff (c : Char) :
    pyIsSpace c = true ↔ (c.toNat = 32 ∨ c.toNat = 9 ∨ c.toNat = 10 ∨ c.toNat = 13 ∨
      c.toNat = 11 ∨ c.toNat = 12) := by
  simp only [pyIsSpace, char_eq_iff_toNat, decide_eq_true_eq]
  exact Iff.rfl

theorem isDigitC_iff (c : Char) :
    isDigitC c = true ↔ (48 ≤ c.toNat ∧ c.toNat ≤ 57) := by
  simp only [isDigitC, Char.isDigit, Bool.and_eq_true, decide_eq_true_eq]
  exact Iff.rfl

theorem isAlphaC_iff (c : Char) :
    isAlphaC c = true ↔ ((65 ≤ c.toNat ∧ c.toNat ≤ 90) ∨ (97 ≤ c.toNat ∧ c.toNat ≤ 122)) := by
  simp only [isAlphaC, Char.isAlpha, Char.isUpper, Char.isLower, Bool.or_eq_true,
    Bool.and_eq_true, decide_eq_true_eq]
  exact Iff.rfl

theorem isWordC_iff (c : Char) :
    isWordC c = true ↔ ((65 ≤ c.toNat ∧ c.toNat ≤ 90) ∨ (97 ≤ c.toNat ∧ c.toNat ≤ 122) ∨
      (48 ≤ c.toNat ∧ c.toNat ≤ 57) ∨ c.toNat = 95) := by
  simp only [isWordC, Char.isAlphanum, Char.isAlpha, Char.isDigit, Char.isUpper,
    Char.isLower, Bool.or_eq_true, Bool.and_eq_true, decide_eq_true_eq,
    char_eq_iff_toNat]
  constructor
  · rintro (((h | h) | h) | h)
    · exact Or.inl ⟨h.1, h.2⟩
    · exact Or.inr (Or.inl ⟨h.1, h.2⟩)
    · exact Or.inr (Or.inr (Or.inl ⟨h.1, h.2⟩))
    · exact Or.inr (Or.inr (Or.inr h))
  · rintro (h | h | h | h)
    · exact Or.inl (Or.inl (Or.inl ⟨h.1, h.2⟩))
    · exact Or.inl (Or.inl (Or.inr ⟨h.1, h.2⟩))
    · exact Or.inl (Or.inr ⟨h.1, h.2⟩)
    · exact Or.inr h

theorem digit_isWord (c : Char) (h : isDigitC c = true) : isWordC c = true := by
  rw [isWordC_iff]
  rw [isDigitC_iff] at h
  omega

theorem alpha_isWord (c : Char) (h : isAlphaC c = true) : isWordC c = true := by
  rw [isWordC_iff]
  rw [isAlphaC_iff] at h
  rcases h with h | h
  · exact Or.inl h
  · exact Or.inr (Or.inl h)

theorem space_not_word (c : Char) (h : pyIsSpace c = true) : isWordC c = false := by
  rw [pyIsSpace_iff] at h
  rcases hw : isWordC c with _ | _
  · rfl
  · rw [isWordC_iff] at hw
    omega

theorem lowerChar_idem (c : Char) : lowerChar (lowerChar c) = lowerChar c := by
  rw [char_eq_iff_toNat, lowerChar_toNat, lowerChar_toNat]
  split_ifs <;> omega

theorem pyIsSpace_lower (c : Char) : pyIsSpace (lowerChar c) = pyIsSpace c := by
  rcases h : pyIsSpace c with _ | _
  · rcases h2 : pyIsSpace (lowerChar c) with _ | _
    · rfl
    · rw [pyIsSpace_iff, lowerChar_toNat] at h2
      rw [← Bool.not_eq_true, pyIsSpace_iff] at h
      split_ifs at h2 <;> omega
  · rw [pyIsSpace_iff] at h ⊢
    rw [lowerChar_toNat]
    split_ifs with hc
    · omega
    · exact h

theorem isDigitC_lower (c : Char) : isDigitC (lowerChar c) = isDigitC c := by
  rcases h : isDigitC c with _ | _
  · rcases h2 : isDigitC (lowerChar c) with _ | _
    · rfl
    · rw [isDigitC_iff, lowerChar_toNat] at h2
      rw [← Bool.not_eq_true, isDigitC_iff] at h
      split_ifs at h2 <;> omega
  · rw [isDigitC_iff] at h ⊢
    rw [lowerChar_toNat]
    split_ifs with hc <;> omega

theorem isAlphaC_lower (c : Char) : isAlphaC (lowerChar c) = isAlphaC c := by
  rcases h : isAlphaC c with _ | _
  · rcases h2 : isAlphaC (lowerChar c) with _ | _
    · rfl
    · rw [isAlphaC_iff, lowerChar_toNat] at h2
      rw [← Bool.not_eq_true, isAlphaC_iff] at h
      split_ifs at h2 <;> omega
  · rw [isAlphaC_iff] at h ⊢
    rw [lowerChar_toNat]
    split_ifs with hc <;> omega

theorem isWordC_lower (c : Char) : isWordC (lowerChar c) = isWordC c := by
  rcases h : isWordC c with _ | _
  · rcases h2 : isWordC (lowerChar c) with _ | _
    · rfl
    · rw [isWordC_iff, lowerChar_toNat] at h2
      rw [← Bool.not_eq_true, isWordC_iff] at h
      split_ifs at h2 <;> omega
  · rw [isWordC_iff] at h ⊢
    rw [lowerChar_toNat]
    split_ifs with hc <;> omega

theorem lowerChar_space : lowerChar ' ' = ' ' := rfl

/-! ## String-level normalization lemmas -/

theorem takeWhile_all (p : Char → Bool) (l : Str) (h : ∀ c ∈ l, p c = true) :
    l.takeWhile p = l := by
  induction l with
  | nil => rfl
  | cons c cs ih =>
    rw [List.takeWhile_cons, if_pos (h c (List.mem_cons_self c cs))]
    rw [ih (fun x hx => h x (List.mem_cons_of_mem c hx))]

theorem dropWhile_all (p : Char → Bool) (l : Str) (h : ∀ c ∈ l, p c = true) :
    l.dropWhile p = [] := by
  induction l with
  | nil => rfl
  | cons c cs ih =>
    rw [List.dropWhile_cons, if_pos (h c (List.mem_cons_self c cs))]
    exact ih (fun x hx => h x (List.mem_cons_of_mem c hx))

theorem lowerStr_idem (s : Str) : lowerStr (lowerStr s) = lowerStr s := by
  induction s with
  | nil => rfl
  | cons c cs ih =>
    simp only [lowerStr, List.map_cons] at ih ⊢
    rw [lowerChar_idem, ih]

theorem takeWhile_map_lower (p : Char → Bool) (hp : ∀ c, p (lowerChar c) = p c)
    (cs : Str) : (lowerStr cs).takeWhile p = lowerStr (cs.takeWhile p) := by
  induction cs with
  | nil => rfl
  | cons c cs2 ih =>
    simp only [lowerStr, List.map_cons, List.takeWhile_cons, hp c]
    by_cases h : p c
    · rw [if_pos h, if_pos h, List.map_cons]
      simp only [lowerStr] at ih
      rw [ih]
    · rw [if_neg h, if_neg h]
      rfl

theorem dropWhile_map_lower (p : Char → Bool) (hp : ∀ c, p (lowerChar c) = p c)
    (cs : Str) : (lowerStr cs).dropWhile p = lowerStr (cs.dropWhile p) := by
  induction cs with
  | nil => rfl
  | cons c cs2 ih =>
    simp only [lowerStr, List.map_cons, List.dropWhile_cons, hp c]
    by_cases h : p c
    · rw [if_pos h, if_pos h]
      simp only [lowerStr] at ih
      rw [ih]
    · rw [if_neg h, if_neg h]
      rfl

theorem pyWords_cons_space (c : Char) (cs : Str) (hc : pyIsSpace c) :
    pyWords (c :: cs) = pyWords cs := by
  cases cs with
  | nil => simp [pyWords, hc]
  | cons d cs2 => simp [pyWords, hc]

theorem nonspace_lower (c : Char) :
    (fun x => ¬ pyIsSpace x : Char → Bool) (lowerChar c) =
      (fun x => ¬ pyIsSpace x : Char → Bool) c := by
  simp [pyIsSpace_lower]

theorem pyWords_lower_aux :
    ∀ (n : ℕ) (s : Str), s.length ≤ n → pyWords (lowerStr s) = (pyWords s).map lowerStr := by
  intro n
  induction n with
  | zero =>
    intro s hs
    rw [List.length_eq_zero.mp (Nat.le_zero.mp hs)]
    rfl
  | succ n ih =>
    intro s hs
    cases s with
    | nil => rfl
    | cons c cs =>
      have hcs : cs.length ≤ n := by
        simp only [List.length_cons] at hs
        omega
      by_cases hsp : pyIsSpace c
      · have hl : pyIsSpace (lowerChar c) = true := by rw [pyIsSpace_lower]; exact hsp
        have e1 : lowerStr (c :: cs) = lowerChar c :: lowerStr cs := rfl
        rw [e1, pyWords_cons_space _ _ hl, pyWords_cons_space _ _ hsp, ih cs hcs]
      · have hl : ¬ pyIsSpace (lowerChar c) = true := by rw [pyIsSpace_lower]; exact hsp
        have e1 : lowerStr (c :: cs) = lowerChar c :: lowerStr cs := rfl
        rw [e1, pyWords_cons_not_space _ _ hl, pyWords_cons_not_space _ _ hsp]
        rw [takeWhile_map_lower _ nonspace_lower, dropWhile_map_lower _ nonspace_lower]
        rw [ih (cs.dropWhile (fun x => ¬ pyIsSpace x))
          (le_trans (lenDropWhile_le _ cs) hcs)]
        rfl

theorem pyWords_lower (s : Str) : pyWords (lowerStr s) = (pyWords s).map lowerStr :=
  pyWords_lower_aux s.length s le_rfl

theorem joinSpace_map_lower (ws : List Str) :
    joinSpace (ws.map lowerStr) = lowerStr (joinSpace ws) := by
  induction ws with
  | nil => rfl
  | cons w ws2 ih =>
    cases ws2 with
    | nil => rfl
    | cons w2 ws3 =>
      have e1 : joinSpace (w :: w2 :: ws3) = w ++ ' ' :: joinSpace (w2 :: ws3) := rfl
      have e2 : joinSpace ((w :: w2 :: ws3).map lowerStr) =
          lowerStr w ++ ' ' :: joinSpace ((w2 :: ws3).map lowerStr) := rfl
      rw [e1, e2, ih]
      simp only [lowerStr, List.map_append, List.map_cons, lowerChar_space]

theorem normSpaces_lower (s : Str) : normSpaces (lowerStr s) = lowerStr (normSpaces s) := by
  rw [normSpaces, normSpaces, pyWords_lower, joinSpace_map_lower]

theorem pyWords_words_spec :
    ∀ (n : ℕ) (s : Str), s.length ≤ n →
      ∀ w ∈ pyWords s, w ≠ [] ∧ ∀ c ∈ w, pyIsSpace c = false := by
  intro n
  induction n with
  | zero =>
    intro s hs w hw
    rw [List.length_eq_zero.mp (Nat.le_zero.mp hs)] at hw
    simp [pyWords] at hw
  | succ n ih =>
    intro s hs w hw
    cases s with
    | nil => simp [pyWords] at hw
    | cons c cs =>
      have hcs : cs.length ≤ n := by
        simp only [List.length_cons] at hs
        omega
      by_cases hsp : pyIsSpace c
      · rw [pyWords_cons_space _ _ hsp] at hw
        exact ih cs hcs w hw
      · rw [pyWords_cons_not_space _ _ hsp] at hw
        rcases List.mem_cons.mp hw with h | h
        · subst h
          refine ⟨by simp, ?_⟩
          intro x hx
          rcases List.mem_cons.mp hx with h2 | h2
          · subst h2
            exact Bool.not_eq_true _ |>.mp hsp
          · have h3 := List.mem_takeWhile_imp h2
            simpa using h3
        · exact ih (cs.dropWhile (fun x => ¬ pyIsSpace x))
            (le_trans (lenDropWhile_le _ cs) hcs) w h

theorem pyWords_join :
    ∀ ws : List Str, (∀ w ∈ ws, w ≠ [] ∧ ∀ c ∈ w, pyIsSpace c = false) →
      pyWords (joinSpace ws) = ws := by
  intro ws
  induction ws with
  | nil => intro _; rfl
  | cons w ws2 ih =>
    intro h
    have hw := h w (List.mem_cons_self w ws2)
    obtain ⟨hne, hns⟩ := hw
    cases hww : w with
    | nil => exact absurd hww hne
    | cons c w1 =>
      subst hww
      have hcns : ¬ pyIsSpace c = true := by
        rw [hns c (List.mem_cons_self c w1)]
        simp
      have hw1 : ∀ x ∈ w1, (fun u => ¬ pyIsSpace u : Char → Bool) x = true := by
        intro x hx
        simp [hns x (List.mem_cons_of_mem c hx)]
      cases ws2 with
      | nil =>
        have e1 : joinSpace [c :: w1] = c :: w1 := rfl
        rw [e1, pyWords_cons_not_space _ _ hcns, takeWhile_all _ _ hw1,
          dropWhile_all _ _ hw1]
        rfl
      | cons w2 ws3 =>
        have e1 : joinSpace ((c :: w1) :: w2 :: ws3) =
            c :: (w1 ++ ' ' :: joinSpace (w2 :: ws3)) := rfl
        rw [e1, pyWords_cons_not_space _ _ hcns]
        have hsp : (fun u => ¬ pyIsSpace u : Char → Bool) ' ' = false := by decide
        have e2 : (w1 ++ ' ' :: joinSpace (w2 :: ws3)).takeWhile
            (fun u => ¬ pyIsSpace u) = w1 := by
          rw [List.takeWhile_append_of_pos hw1, List.takeWhile_cons, if_neg (by decide)]
          simp
        have e3 : (w1 ++ ' ' :: joinSpace (w2 :: ws3)).dropWhile
            (fun u => ¬ pyIsSpace u) = ' ' :: joinSpace (w2 :: ws3) := by
          rw [List.dropWhile_append_of_pos hw1, List.dropWhile_cons, if_neg (by decide)]
        rw [e2, e3, pyWords_cons_space _ _ (by decide),
          ih (fun u hu => h u (List.mem_cons_of_mem _ hu))]

theorem normSpaces_idem (s : Str) : normSpaces (normSpaces s) = normSpaces s := by
  rw [normSpaces, normSpaces, pyWords_join (pyWords s)
    (pyWords_words_spec s.length s le_rfl)]

/-! ## Facts about the numeric-token stripper -/

/-- No position of `s` can start a `\b\d+[a-zA-Z]*\b` match, given that the
    character before `s` is a `\w` character iff `pw`. -/
def noMatch (pw : Bool) : Str → Bool
  | [] => true
  | c :: cs =>
    ((pw || !isDigitC c) ||
      headIsWord ((List.dropWhile isDigitC (c :: cs)).dropWhile isAlphaC)) &&
      noMatch (isWordC c) cs

/-- The previous-character-is-word flag after scanning `s` from flag `pw`. -/
def flagAfter (pw : Bool) (s : Str) : Bool := s.foldl (fun _ c => isWordC c) pw

theorem subNum_nil (pw : Bool) : subNumTokens pw [] = [] := by
  rw [subNumTokens]

theorem subNum_cons_go (pw : Bool) (c : Char) (cs : Str)
    (h : pw = true ∨ ¬ isDigitC c = true) :
    subNumTokens pw (c :: cs) = c :: subNumTokens (isWordC c) cs := by
  rw [subNumTokens]
  rw [dif_pos h]

theorem subNum_cons_fail (pw : Bool) (c : Char) (cs : Str)
    (h : ¬ (pw = true ∨ ¬ isDigitC c = true))
    (h2 : headIsWord ((List.dropWhile isDigitC (c :: cs)).dropWhile isAlphaC) = true) :
    subNumTokens pw (c :: cs) = c :: subNumTokens true cs := by
  rw [subNumTokens]
  rw [dif_neg h]
  simp only [h2, if_true]

theorem subNum_cons_hit (pw : Bool) (c : Char) (cs : Str)
    (h : ¬ (pw = true ∨ ¬ isDigitC c = true))
    (h2 : headIsWord ((List.dropWhile isDigitC (c :: cs)).dropWhile isAlphaC) = false) :
    subNumTokens pw (c :: cs) =
      ' ' :: subNumTokens true ((List.dropWhile isDigitC (c :: cs)).dropWhile isAlphaC) := by
  rw [subNumTokens]
  rw [dif_neg h]
  simp only [h2]
  rfl

theorem headIsWord_append (l r : Str) (hl : l ≠ []) :
    headIsWord (l ++ r) = headIsWord l := by
  cases l with
  | nil => exact absurd rfl hl
  | cons c t => rfl

theorem headIsWord_lower (l : Str) : headIsWord (lowerStr l) = headIsWord l := by
  cases l with
  | nil => rfl
  | cons c t => exact isWordC_lower c

theorem dropWhile_head_not (p : Char → Bool) (l : Str) (c : Char) (t : Str)
    (h : l.dropWhile p = c :: t) : p c = false := by
  induction l with
  | nil => simp [List.dropWhile] at h
  | cons a l2 ih =>
    rw [List.dropWhile_cons] at h
    by_cases ha : p a
    · rw [if_pos ha] at h
      exact ih h
    · rw [if_neg ha] at h
      cases h
      exact Bool.not_eq_true _ |>.mp ha

theorem digit_not_alpha (c : Char) (h : isDigitC c = true) : isAlphaC c = false := by
  rcases ha : isAlphaC c with _ | _
  · rfl
  · rw [isDigitC_iff] at h
    rw [isAlphaC_iff] at ha
    omega

theorem not_word_not_digit (c : Char) (h : isWordC c = false) : isDigitC c = false := by
  by_contra hd
  rw [Bool.not_eq_false] at hd
  rw [digit_isWord c hd] at h
  simp at h

theorem not_word_not_alpha (c : Char) (h : isWordC c = false) : isAlphaC c = false := by
  by_contra ha
  rw [Bool.not_eq_false] at ha
  rw [alpha_isWord c ha] at h
  simp at h

theorem dropWhile_cons_neg (p : Char → Bool) (c : Char) (t : Str) (h : p c = false) :
    (c :: t).dropWhile p = c :: t := by
  rw [List.dropWhile_cons, if_neg (by simp [h])]

/-- The stripper commutes with lowercasing. -/
theorem subNum_lower_aux :
    ∀ (n : ℕ) (s : Str), s.length ≤ n → ∀ pw,
      subNumTokens pw (lowerStr s) = lowerStr (subNumTokens pw s) := by
  intro n
  induction n with
  | zero =>
    intro s hs pw
    rw [List.length_eq_zero.mp (Nat.le_zero.mp hs)]
    have e : lowerStr ([] : Str) = ([] : Str) := rfl
    rw [e, subNum_nil, e]
  | succ n ih =>
    intro s hs pw
    cases s with
    | nil =>
      have e : lowerStr ([] : Str) = ([] : Str) := rfl
      rw [e, subNum_nil, e]
    | cons c cs =>
      have hcs : cs.length ≤ n := by
        simp only [List.length_cons] at hs
        omega
      have e0 : lowerStr (c :: cs) = lowerChar c :: lowerStr cs := rfl
      by_cases hcond : pw = true ∨ ¬ isDigitC c = true
      · have hcondl : pw = true ∨ ¬ isDigitC (lowerChar c) = true := by
          rw [isDigitC_lower]
          exact hcond
        rw [e0, subNum_cons_go pw _ _ hcondl, subNum_cons_go pw _ _ hcond,
          isWordC_lower, ih cs hcs (isWordC c)]
        rfl
      · have hcondl : ¬ (pw = true ∨ ¬ isDigitC (lowerChar c) = true) := by
          rw [isDigitC_lower]
          exact hcond
        have hdrop : (List.dropWhile isDigitC (lowerChar c :: lowerStr cs)).dropWhile
            isAlphaC = lowerStr ((List.dropWhile isDigitC (c :: cs)).dropWhile isAlphaC) := by
          rw [← e0, dropWhile_map_lower isDigitC isDigitC_lower,
            dropWhile_map_lower isAlphaC isAlphaC_lower]
        by_cases hw : headIsWord ((List.dropWhile isDigitC (c :: cs)).dropWhile isAlphaC)
        · have hwl : headIsWord ((List.dropWhile isDigitC
              (lowerChar c :: lowerStr cs)).dropWhile isAlphaC) = true := by
            rw [hdrop, headIsWord_lower]
            exact hw
          rw [e0, subNum_cons_fail pw _ _ hcondl hwl, subNum_cons_fail pw _ _ hcond hw,
            ih cs hcs true]
          rfl
        · have hw2 : headIsWord ((List.dropWhile isDigitC (c :: cs)).dropWhile isAlphaC)
              = false := Bool.not_eq_true _ |>.mp hw
          have hwl : headIsWord ((List.dropWhile isDigitC
              (lowerChar c :: lowerStr cs)).dropWhile isAlphaC) = false := by
            rw [hdrop, headIsWord_lower]
            exact hw2
          have hlen : ((List.dropWhile isDigitC (c :: cs)).dropWhile isAlphaC).length ≤ n := by
            have := dropDigitsAlpha_len_lt pw c cs hcond
            omega
          rw [e0, subNum_cons_hit pw _ _ hcondl hwl, subNum_cons_hit pw _ _ hcond hw2,
            hdrop, ih _ hlen true]
          rfl

theorem subNum_lower (s : Str) (pw : Bool) :
    subNumTokens pw (lowerStr s) = lowerStr (subNumTokens pw s) :=
  subNum_lower_aux s.length s le_rfl pw

/-- On a string with no startable match, the stripper is the identity. -/
theorem subNum_of_noMatch :
    ∀ (s : Str) (pw : Bool), noMatch pw s = true → subNumTokens pw s = s := by
  intro s
  induction s with
  | nil =>
    intro pw _
    exact subNum_nil pw
  | cons c cs ih =>
    intro pw h
    rw [noMatch, Bool.and_eq_true] at h
    obtain ⟨h1, h2⟩ := h
    by_cases hcond : pw = true ∨ ¬ isDigitC c = true
    · rw [subNum_cons_go pw c cs hcond, ih (isWordC c) h2]
    · have hdig : isDigitC c = true := not_not.mp (not_or.mp hcond).2
      have hpw : pw = false := Bool.not_eq_true pw |>.mp (not_or.mp hcond).1
      have hpost : headIsWord ((List.dropWhile isDigitC (c :: cs)).dropWhile isAlphaC)
          = true := by
        rw [hpw, hdig] at h1
        simpa using h1
      rw [subNum_cons_fail pw c cs hcond hpost]
      have hw : isWordC c = true := digit_isWord c hdig
      rw [← hw, ih (isWordC c) h2]

/-- The stripper copies a leading run of word characters under a word context. -/
theorem subNum_copy_words (l : Str) (hl : ∀ x ∈ l, isWordC x = true) (r : Str) :
    subNumTokens true (l ++ r) = l ++ subNumTokens true r := by
  induction l with
  | nil => rfl
  | cons c l2 ih =>
    rw [List.cons_append, subNum_cons_go true c (l2 ++ r) (Or.inl rfl),
      hl c (List.mem_cons_self c l2),
      ih (fun x hx => hl x (List.mem_cons_of_mem c hx))]
    rfl

theorem alpha_not_digit (c : Char) (h : isAlphaC c = true) : isDigitC c = false := by
  rcases hd : isDigitC c with _ | _
  · rfl
  · rw [isAlphaC_iff] at h
    rw [isDigitC_iff] at hd
    omega

/-- After one pass of the stripper, no position can start a match. -/
theorem noMatch_subNum_aux :
    ∀ (n : ℕ) (s : Str), s.length ≤ n → ∀ pw, noMatch pw (subNumTokens pw s) = true := by
  intro n
  induction n with
  | zero =>
    intro s hs pw
    rw [List.length_eq_zero.mp (Nat.le_zero.mp hs), subNum_nil]
    rfl
  | succ n ih =>
    intro s hs pw
    cases s with
    | nil =>
      rw [subNum_nil]
      rfl
    | cons c cs =>
      have hcs : cs.length ≤ n := by
        simp only [List.length_cons] at hs
        omega
      by_cases hcond : pw = true ∨ ¬ isDigitC c = true
      · rw [subNum_cons_go pw c cs hcond]
        rw [noMatch, Bool.and_eq_true]
        refine ⟨?_, ih cs hcs (isWordC c)⟩
        rcases hcond with h | h
        · simp [h]
        · have hd : isDigitC c = false := Bool.not_eq_true _ |>.mp h
          simp [hd]
      · have hdig : isDigitC c = true := not_not.mp (not_or.mp hcond).2
        have hpw : pw = false := Bool.not_eq_true pw |>.mp (not_or.mp hcond).1
        by_cases hpost : headIsWord
            ((List.dropWhile isDigitC (c :: cs)).dropWhile isAlphaC) = true
        · -- the failed-match advance: the digit run, letter run and blocking word
          -- character survive unchanged, so the position stays blocked
          rw [subNum_cons_fail pw c cs hcond hpost]
          rw [noMatch, Bool.and_eq_true]
          constructor
          · rw [hpw, hdig]
            have hdd : List.dropWhile isDigitC (c :: cs) = List.dropWhile isDigitC cs := by
              rw [List.dropWhile_cons, if_pos (by simp [hdig])]
            rw [hdd] at hpost
            have f1 : cs.takeWhile isDigitC ++ cs.dropWhile isDigitC = cs :=
              List.takeWhile_append_dropWhile isDigitC cs
            have f2 : (cs.dropWhile isDigitC).takeWhile isAlphaC ++
                (cs.dropWhile isDigitC).dropWhile isAlphaC = cs.dropWhile isDigitC :=
              List.takeWhile_append_dropWhile isAlphaC (cs.dropWhile isDigitC)
            cases hr : (cs.dropWhile isDigitC).dropWhile isAlphaC with
            | nil =>
              rw [hr] at hpost
              simp [headIsWord] at hpost
            | cons h t =>
              rw [hr] at hpost
              have hhw : isWordC h = true := hpost
              have hhna : isAlphaC h = false :=
                dropWhile_head_not isAlphaC (cs.dropWhile isDigitC) h t hr
              have hds : ∀ x ∈ cs.takeWhile isDigitC, isWordC x = true := by
                intro x hx
                exact digit_isWord x (by simpa using List.mem_takeWhile_imp hx)
              have hls : ∀ x ∈ (cs.dropWhile isDigitC).takeWhile isAlphaC,
                  isWordC x = true := by
                intro x hx
                exact alpha_isWord x (by simpa using List.mem_takeWhile_imp hx)
              have e1 : subNumTokens true cs =
                  cs.takeWhile isDigitC ++ ((cs.dropWhile isDigitC).takeWhile isAlphaC ++
                    (h :: subNumTokens (isWordC h) t)) := by
                conv_lhs => rw [← f1]
                rw [← subNum_cons_go true h t (Or.inl rfl), ← hr]
                rw [subNum_copy_words _ hds]
                congr 1
                conv_lhs => rw [← f2]
                rw [subNum_copy_words _ hls]
              rw [e1]
              have hdd2 : List.dropWhile isDigitC
                  (c :: (cs.takeWhile isDigitC ++
                    ((cs.dropWhile isDigitC).takeWhile isAlphaC ++
                      (h :: subNumTokens (isWordC h) t)))) =
                  List.dropWhile isDigitC
                    ((cs.dropWhile isDigitC).takeWhile isAlphaC ++
                      (h :: subNumTokens (isWordC h) t)) := by
                rw [List.dropWhile_cons, if_pos (by simp [hdig]),
                  List.dropWhile_append_of_pos
                    (by intro x hx; simpa using List.mem_takeWhile_imp hx)]
              rw [hdd2]
              cases hls2 : (cs.dropWhile isDigitC).takeWhile isAlphaC with
              | nil =>
                have hhnd : isDigitC h = false := by
                  have : cs.dropWhile isDigitC = h :: t := by
                    rw [← f2, hls2, hr]
                    rfl
                  exact dropWhile_head_not isDigitC cs h t this
                rw [List.nil_append, dropWhile_cons_neg _ _ _ hhnd,
                  dropWhile_cons_neg _ _ _ hhna]
                exact hhw
              | cons a ls2 =>
                have hana : isAlphaC a = true := by
                  have : a ∈ (cs.dropWhile isDigitC).takeWhile isAlphaC := by
                    rw [hls2]
                    exact List.mem_cons_self a ls2
                  simpa using List.mem_takeWhile_imp this
                have hand : isDigitC a = false := alpha_not_digit a hana
                rw [List.cons_append, dropWhile_cons_neg _ _ _ hand, ← List.cons_append,
                  List.dropWhile_append_of_pos (by
                    intro x hx
                    rw [← hls2] at hx
                    simpa using List.mem_takeWhile_imp hx),
                  dropWhile_cons_neg _ _ _ hhna]
                exact hhw
          · rw [digit_isWord c hdig]
            exact ih cs hcs true
        · have hpost2 : headIsWord
              ((List.dropWhile isDigitC (c :: cs)).dropWhile isAlphaC) = false :=
            Bool.not_eq_true _ |>.mp hpost
          rw [subNum_cons_hit pw c cs hcond hpost2]
          rw [noMatch, Bool.and_eq_true]
          constructor
          · have : isDigitC ' ' = false := by decide
            simp [this]
          · have hws : isWordC ' ' = false := by decide
            rw [hws]
            cases hr : (List.dropWhile isDigitC (c :: cs)).dropWhile isAlphaC with
            | nil =>
              rw [subNum_nil]
              rfl
            | cons h t =>
              have hhw : isWordC h = false := by
                rw [hr] at hpost2
                exact hpost2
              rw [subNum_cons_go true h t (Or.inl rfl), hhw]
              rw [noMatch, Bool.and_eq_true]
              constructor
              · have : isDigitC h = false := not_word_not_digit h hhw
                simp [this]
              · rw [hhw]
                have hlen : t.length ≤ n := by
                  have h1 := dropDigitsAlpha_len_lt pw c cs hcond
                  rw [hr] at h1
                  simp only [List.length_cons] at h1
                  omega
                exact ih t hlen false

theorem isEmpty_eq_nil {l : Str} (h : l.isEmpty = true) : l = [] := by
  cases l with
  | nil => rfl
  | cons c t => simp at h

/-- The match lookahead at a position is unaffected by a following segment whose
    first character is not a word character. -/
theorem post_append_stable (x ys : Str) (hys : headIsWord ys = false) :
    headIsWord ((x ++ ys).dropWhile isDigitC |>.dropWhile isAlphaC) =
      headIsWord ((x.dropWhile isDigitC).dropWhile isAlphaC) := by
  have hysd : ys.dropWhile isDigitC = ys := by
    cases ys with
    | nil => rfl
    | cons h t => exact dropWhile_cons_neg _ _ _ (not_word_not_digit h hys)
  have hysa : ys.dropWhile isAlphaC = ys := by
    cases ys with
    | nil => rfl
    | cons h t => exact dropWhile_cons_neg _ _ _ (not_word_not_alpha h hys)
  rw [List.dropWhile_append]
  by_cases h1 : (x.dropWhile isDigitC).isEmpty
  · rw [if_pos h1, isEmpty_eq_nil h1, hysd, hysa]
    cases ys with
    | nil => rfl
    | cons h t => exact hys
  · rw [if_neg h1, List.dropWhile_append]
    by_cases h2 : ((x.dropWhile isDigitC).dropWhile isAlphaC).isEmpty
    · rw [if_pos h2, isEmpty_eq_nil h2, hysa]
      cases ys with
      | nil => rfl
      | cons h t => exact hys
    · rw [if_neg h2]
      apply headIsWord_append
      intro hnil
      rw [hnil] at h2
      simp at h2

/-- `noMatch` does not depend on the incoming flag when the string starts with a
    non-word character (or is empty). -/
theorem noMatch_flag_irrel (ys : Str) (hys : headIsWord ys = false) (f1 f2 : Bool) :
    noMatch f1 ys = noMatch f2 ys := by
  cases ys with
  | nil => rfl
  | cons h t =>
    have hd : isDigitC h = false := not_word_not_digit h hys
    rw [noMatch, noMatch, hd]
    simp

/-- Splitting `noMatch` across an append whose right part starts with a
    non-word character. -/
theorem noMatch_append (ys : Str) (hys : headIsWord ys = false) :
    ∀ (xs : Str) (pw : Bool),
      noMatch pw (xs ++ ys) = (noMatch pw xs && noMatch (flagAfter pw xs) ys) := by
  intro xs
  induction xs with
  | nil =>
    intro pw
    simp [noMatch, flagAfter]
  | cons c xs2 ih =>
    intro pw
    have lhs_eq : noMatch pw ((c :: xs2) ++ ys) =
        (((pw || !isDigitC c) ||
          headIsWord ((List.dropWhile isDigitC ((c :: xs2) ++ ys)).dropWhile isAlphaC)) &&
          noMatch (isWordC c) (xs2 ++ ys)) := rfl
    have rhs_eq : noMatch pw (c :: xs2) =
        (((pw || !isDigitC c) ||
          headIsWord ((List.dropWhile isDigitC (c :: xs2)).dropWhile isAlphaC)) &&
          noMatch (isWordC c) xs2) := rfl
    have hflag : flagAfter pw (c :: xs2) = flagAfter (isWordC c) xs2 := rfl
    rw [lhs_eq, rhs_eq, post_append_stable (c :: xs2) ys hys, ih (isWordC c), hflag,
      Bool.and_assoc]

theorem noMatch_words_aux :
    ∀ (n : ℕ) (s : Str), s.length ≤ n → noMatch false s = true →
      ∀ w ∈ pyWords s, noMatch false w = true := by
  intro n
  induction n with
  | zero =>
    intro s hs _ w hw
    rw [List.length_eq_zero.mp (Nat.le_zero.mp hs)] at hw
    simp [pyWords] at hw
  | succ n ih =>
    intro s hs h w hw
    cases s with
    | nil => simp [pyWords] at hw
    | cons c cs =>
      have hcs : cs.length ≤ n := by
        simp only [List.length_cons] at hs
        omega
      by_cases hsp : pyIsSpace c
      · rw [pyWords_cons_space _ _ hsp] at hw
        rw [noMatch, Bool.and_eq_true] at h
        have h2 := h.2
        rw [space_not_word c hsp] at h2
        exact ih cs hcs h2 w hw
      · have e_split : c :: cs =
            (c :: cs.takeWhile (fun x => ¬ pyIsSpace x)) ++
              cs.dropWhile (fun x => ¬ pyIsSpace x) := by
          rw [List.cons_append, List.takeWhile_append_dropWhile]
        have hrest : headIsWord (cs.dropWhile (fun x => ¬ pyIsSpace x)) = false := by
          cases hd : cs.dropWhile (fun x => ¬ pyIsSpace x) with
          | nil => rfl
          | cons h2 t2 =>
            have hp := dropWhile_head_not _ cs h2 t2 hd
            have hsp2 : pyIsSpace h2 = true := by simpa using hp
            exact space_not_word h2 hsp2
        rw [e_split, noMatch_append _ hrest _ false, Bool.and_eq_true] at h
        rw [pyWords_cons_not_space _ _ hsp] at hw
        rcases List.mem_cons.mp hw with hww | hww
        · subst hww
          exact h.1
        · have h2 := h.2
          rw [noMatch_flag_irrel _ hrest _ false] at h2
          exact ih (cs.dropWhile (fun x => ¬ pyIsSpace x))
            (le_trans (lenDropWhile_le _ cs) hcs) h2 w hww

theorem noMatch_join :
    ∀ ws : List Str, (∀ w ∈ ws, noMatch false w = true) →
      noMatch false (joinSpace ws) = true := by
  intro ws
  induction ws with
  | nil => intro _; rfl
  | cons w ws2 ih =>
    intro h
    cases ws2 with
    | nil => exact h w (List.mem_cons_self w [])
    | cons w2 ws3 =>
      have e1 : joinSpace (w :: w2 :: ws3) = w ++ ' ' :: joinSpace (w2 :: ws3) := rfl
      have hsw : headIsWord (' ' :: joinSpace (w2 :: ws3)) = false := by
        have : isWordC ' ' = false := by decide
        exact this
      rw [e1, noMatch_append _ hsw _ false, Bool.and_eq_true]
      refine ⟨h w (List.mem_cons_self w _), ?_⟩
      have e2 : ∀ f : Bool, noMatch f (' ' :: joinSpace (w2 :: ws3)) =
          (((f || !isDigitC ' ') ||
            headIsWord ((List.dropWhile isDigitC
              (' ' :: joinSpace (w2 :: ws3))).dropWhile isAlphaC)) &&
            noMatch (isWordC ' ') (joinSpace (w2 :: ws3))) := fun f => rfl
      rw [e2]
      have hd : (!isDigitC ' ') = true := by decide
      have hw : isWordC ' ' = false := by decide
      rw [hd, hw]
      simp only [Bool.or_true, Bool.true_or, Bool.true_and]
      exact ih (fun u hu => h u (List.mem_cons_of_mem w hu))

theorem noDigit_noMatch :
    ∀ (s : Str), (∀ c ∈ s, isDigitC c = false) → ∀ pw, noMatch pw s = true := by
  intro s
  induction s with
  | nil => intro _ pw; rfl
  | cons c cs ih =>
    intro h pw
    rw [noMatch, Bool.and_eq_true]
    refine ⟨?_, ih (fun x hx => h x (List.mem_cons_of_mem c hx)) (isWordC c)⟩
    have hc : isDigitC c = false := h c (List.mem_cons_self c cs)
    simp [hc]

theorem digitRuns_cons_nondigit (c : Char) (cs : Str) (hc : ¬ isDigitC c = true) :
    digitRuns (c :: cs) = digitRuns cs := by
  cases cs with
  | nil => simp [digitRuns, hc]
  | cons d cs2 => simp [digitRuns, hc]

theorem digitRuns_eq_nil_aux :
    ∀ (n : ℕ) (s : Str), s.length ≤ n →
      (digitRuns s = [] ↔ ∀ c ∈ s, isDigitC c = false) := by
  intro n
  induction n with
  | zero =>
    intro s hs
    rw [List.length_eq_zero.mp (Nat.le_zero.mp hs)]
    simp [digitRuns]
  | succ n ih =>
    intro s hs
    cases s with
    | nil => simp [digitRuns]
    | cons c cs =>
      have hcs : cs.length ≤ n := by
        simp only [List.length_cons] at hs
        omega
      by_cases hc : isDigitC c
      · rw [digitRuns_cons_digit c cs hc]
        constructor
        · intro h
          simp at h
        · intro h
          exact absurd (h c (List.mem_cons_self c cs)) (by simp [hc])
      · rw [digitRuns_cons_nondigit c cs hc]
        rw [ih cs hcs]
        constructor
        · intro h x hx
          rcases List.mem_cons.mp hx with hxx | hxx
          · subst hxx
            exact Bool.not_eq_true _ |>.mp hc
          · exact h x hxx
        · intro h x hx
          exact h x (List.mem_cons_of_mem c hx)

theorem digitRuns_eq_nil_iff (s : Str) :
    digitRuns s = [] ↔ ∀ c ∈ s, isDigitC c = false :=
  digitRuns_eq_nil_aux s.length s le_rfl

theorem noMatch_lower :
    ∀ (s : Str) (pw : Bool), noMatch pw (lowerStr s) = noMatch pw s := by
  intro s
  induction s with
  | nil => intro pw; rfl
  | cons c cs ih =>
    intro pw
    have e0 : lowerStr (c :: cs) = lowerChar c :: lowerStr cs := rfl
    have e1 : noMatch pw (lowerChar c :: lowerStr cs) =
        (((pw || !isDigitC (lowerChar c)) ||
          headIsWord ((List.dropWhile isDigitC
            (lowerChar c :: lowerStr cs)).dropWhile isAlphaC)) &&
          noMatch (isWordC (lowerChar c)) (lowerStr cs)) := rfl
    have e2 : noMatch pw (c :: cs) =
        (((pw || !isDigitC c) ||
          headIsWord ((List.dropWhile isDigitC (c :: cs)).dropWhile isAlphaC)) &&
          noMatch (isWordC c) cs) := rfl
    have hdrop : (List.dropWhile isDigitC (lowerChar c :: lowerStr cs)).dropWhile
        isAlphaC = lowerStr ((List.dropWhile isDigitC (c :: cs)).dropWhile isAlphaC) := by
      rw [← e0, dropWhile_map_lower isDigitC isDigitC_lower,
        dropWhile_map_lower isAlphaC isAlphaC_lower]
    rw [e0, e1, e2, hdrop, headIsWord_lower, isDigitC_lower, isWordC_lower, ih]

/-! ## Field views of the Normalizer (proof-layer abbreviations of the
    corresponding pieces of `apply_pre_match_guardrails`) -/

/-- The canonical brand of `apply_pre_match_guardrails` (lines 37-45). -/
def normBrand (b : Str) : Str :=
  let raw := normSpaces b
  let u := lowerStr (normSpaces (subNumTokens false raw))
  if u.isEmpty then lowerStr raw else u

/-- The detected variant of `apply_pre_match_guardrails` (lines 38-42). -/
def detectVariant (bv : Option Str) (b : Str) : Option Str :=
  match bv with
  | some v => some v
  | none =>
    match digitRuns (normSpaces b) with
    | [] => none
    | t :: _ => some t

/-- The normalized form of `apply_pre_match_guardrails` (lines 47-49). -/
def normFormField (f : Option Str) : Option Str :=
  let raw := normSpaces (f.getD [])
  match alGet FORM_MAP (lowerStr raw) with
  | some v => some v
  | none => if raw.isEmpty then none else some (lowerStr raw)

/-- The normalized frequency of `apply_pre_match_guardrails` (lines 48-50). -/
def normFreqField (f : Option Str) : Option Str :=
  let raw := normSpaces (f.getD [])
  match alGet FREQUENCY_MAP (lowerStr raw) with
  | some v => some v
  | none => if raw.isEmpty then none else some (lowerStr raw)

/-- The normalized generic name of `apply_pre_match_guardrails` (line 57). -/
def normGenericField (g : Option Str) : Option Str :=
  match g with
  | some gg => if gg.isEmpty then none else some (lowerStr gg)
  | none => none

/-- The mention returned by the Normalizer, field by field. -/
theorem apply_pre_fields (e : ExtractedMedicine) (logs : List Str) :
    (apply_pre_match_guardrails e logs).1 =
      ⟨e.raw_input,
       normBrand e.brand_name,
       detectVariant e.brand_variant e.brand_name,
       normGenericField e.generic_name,
       (if truthy (detectVariant e.brand_variant e.brand_name) then none else e.strength),
       normFormField e.form,
       normFreqField e.frequency⟩ := by
  simp only [apply_pre_match_guardrails, normBrand, detectVariant, normFormField,
    normFreqField, normGenericField]

theorem noDigits_lower (s : Str) (h : ∀ c ∈ s, isDigitC c = false) :
    ∀ c ∈ lowerStr s, isDigitC c = false := by
  intro c hc
  rcases List.mem_map.mp hc with ⟨x, hx, hxe⟩
  rw [← hxe, isDigitC_lower]
  exact h x hx

/-- When the (space-normalized) brand has no digits the stripper is inert and
    the canonical brand is just the lowercased normalized text. -/
theorem normBrand_of_noDigits (b : Str)
    (h : ∀ c ∈ normSpaces b, isDigitC c = false) :
    normBrand b = lowerStr (normSpaces b) := by
  simp only [normBrand]
  rw [subNum_of_noMatch (normSpaces b) false (noDigit_noMatch (normSpaces b) h false),
    normSpaces_idem]
  split_ifs <;> rfl

/-- The canonical brand is a fixed point of brand canonicalization. -/
theorem normBrand_idem (b : Str) : normBrand (normBrand b) = normBrand b := by
  by_cases hu : (lowerStr (normSpaces (subNumTokens false (normSpaces b)))).isEmpty
  · -- the stripped text collapses to nothing; the brand falls back to the
    -- lowercased original
    have hX : normSpaces (subNumTokens false (normSpaces b)) = [] :=
      List.map_eq_nil_iff.mp (isEmpty_eq_nil hu)
    have e1 : normBrand b = lowerStr (normSpaces b) := by
      simp only [normBrand]
      rw [if_pos hu]
    rw [e1]
    simp only [normBrand]
    rw [normSpaces_lower, normSpaces_idem, subNum_lower, normSpaces_lower, hX]
    have e2 : lowerStr (lowerStr ([] : Str)) = [] := rfl
    rw [e2]
    have e3 : (([] : Str)).isEmpty = true := rfl
    rw [if_pos e3, lowerStr_idem]
  · have e1 : normBrand b = lowerStr (normSpaces (subNumTokens false (normSpaces b))) := by
      simp only [normBrand]
      rw [if_neg hu]
    have hnm : noMatch false
        (lowerStr (normSpaces (subNumTokens false (normSpaces b)))) = true := by
      rw [noMatch_lower]
      exact noMatch_join _ (noMatch_words_aux _ _ le_rfl
        (noMatch_subNum_aux _ _ le_rfl false))
    have hns : normSpaces (lowerStr (normSpaces (subNumTokens false (normSpaces b)))) =
        lowerStr (normSpaces (subNumTokens false (normSpaces b))) := by
      rw [normSpaces_lower, normSpaces_idem]
    rw [e1]
    simp only [normBrand]
    rw [hns, subNum_of_noMatch _ false hnm, hns, lowerStr_idem]
    rw [if_neg hu]

/-- Detecting a variant on a normalized mention returns the variant detected on
    the raw mention. -/
theorem detectVariant_after (bv : Option Str) (b : Str) :
    detectVariant (detectVariant bv b) (normBrand b) = detectVariant bv b := by
  cases hdv : detectVariant bv b with
  | some v => rfl
  | none =>
    have hbvn : bv = none := by
      cases hb : bv with
      | none => rfl
      | some v =>
        rw [hb] at hdv
        simp [detectVariant] at hdv
    rw [hbvn] at hdv
    have hdr : digitRuns (normSpaces b) = [] := by
      cases hd : digitRuns (normSpaces b) with
      | nil => rfl
      | cons t ts =>
        rw [detectVariant, hd] at hdv
        simp at hdv
    have hnod : ∀ c ∈ normSpaces b, isDigitC c = false :=
      (digitRuns_eq_nil_iff (normSpaces b)).mp hdr
    rw [detectVariant]
    rw [normBrand_of_noDigits b hnod, normSpaces_lower, normSpaces_idem]
    rw [(digitRuns_eq_nil_iff _).mpr (noDigits_lower _ hnod)]

theorem alGet_mem (m : List (Str × Str)) (k v : Str) (h : alGet m k = some v) :
    v ∈ m.map Prod.snd := by
  induction m with
  | nil => simp [alGet] at h
  | cons p rest ih =>
    rw [alGet] at h
    by_cases hk : k = p.1
    · rw [if_pos hk] at h
      cases h
      simp
    · rw [if_neg hk] at h
      simp only [List.map_cons, List.mem_cons]
      exact Or.inr (ih h)

theorem isEmpty_lowerStr (l : Str) : (lowerStr l).isEmpty = l.isEmpty := by
  cases l with
  | nil => rfl
  | cons c t => rfl

theorem normFormField_idem (f : Option Str) :
    normFormField (normFormField f) = normFormField f := by
  cases hget : alGet FORM_MAP (lowerStr (normSpaces (f.getD []))) with
  | some v =>
    have e1 : normFormField f = some v := by
      simp only [normFormField]
      rw [hget]
    have hv := alGet_mem _ _ _ hget
    have hfix : normSpaces v = v ∧ lowerStr v = v ∧ alGet FORM_MAP v = some v := by
      simp only [FORM_MAP, List.map_cons, List.map_nil, List.mem_cons,
        List.not_mem_nil, or_false] at hv
      rcases hv with h | h | h | h | h | h | h | h <;> subst h <;>
        exact ⟨by decide, by decide, by decide⟩
    rw [e1]
    simp only [normFormField]
    have e2 : (some v).getD ([] : Str) = v := rfl
    rw [e2, hfix.1, hfix.2.1, hfix.2.2]
  | none =>
    by_cases hraw : (normSpaces (f.getD [])).isEmpty
    · have e1 : normFormField f = none := by
        simp only [normFormField]
        rw [hget, if_pos hraw]
      rw [e1]
      exact e1 ▸ (by decide : normFormField none = none)
    · have e1 : normFormField f = some (lowerStr (normSpaces (f.getD []))) := by
        simp only [normFormField]
        rw [hget, if_neg hraw]
      rw [e1]
      simp only [normFormField]
      have e2 : (some (lowerStr (normSpaces (f.getD [])))).getD ([] : Str) =
          lowerStr (normSpaces (f.getD [])) := rfl
      rw [e2, normSpaces_lower, normSpaces_idem, lowerStr_idem, hget]
      rw [if_neg (by rw [isEmpty_lowerStr]; exact hraw)]

theorem normFreqField_idem (f : Option Str) :
    normFreqField (normFreqField f) = normFreqField f := by
  cases hget : alGet FREQUENCY_MAP (lowerStr (normSpaces (f.getD []))) with
  | some v =>
    have e1 : normFreqField f = some v := by
      simp only [normFreqField]
      rw [hget]
    have hv := alGet_mem _ _ _ hget
    have hfix : normSpaces v = v ∧ lowerStr v = v ∧ alGet FREQUENCY_MAP v = none ∧
        v.isEmpty = false := by
      simp only [FREQUENCY_MAP, List.map_cons, List.map_nil, List.mem_cons,
        List.not_mem_nil, or_false] at hv
      rcases hv with h | h | h | h <;> subst h <;>
        exact ⟨by decide, by decide, by decide, by decide⟩
    rw [e1]
    simp only [normFreqField]
    have e2 : (some v).getD ([] : Str) = v := rfl
    rw [e2, hfix.1, hfix.2.1, hfix.2.2.1, if_neg (by rw [hfix.2.2.2]; simp)]
  | none =>
    by_cases hraw : (normSpaces (f.getD [])).isEmpty
    · have e1 : normFreqField f = none := by
        simp only [normFreqField]
        rw [hget, if_pos hraw]
      rw [e1]
      exact e1 ▸ (by decide : normFreqField none = none)
    · have e1 : normFreqField f = some (lowerStr (normSpaces (f.getD []))) := by
        simp only [normFreqField]
        rw [hget, if_neg hraw]
      rw [e1]
      simp only [normFreqField]
      have e2 : (some (lowerStr (normSpaces (f.getD [])))).getD ([] : Str) =
          lowerStr (normSpaces (f.getD [])) := rfl
      rw [e2, normSpaces_lower, normSpaces_idem, lowerStr_idem, hget]
      rw [if_neg (by rw [isEmpty_lowerStr]; exact hraw)]

theorem normGenericField_idem (g : Option Str) :
    normGenericField (normGenericField g) = normGenericField g := by
  cases g with
  | none => rfl
  | some gg =>
    by_cases hge : gg.isEmpty
    · simp only [normGenericField]
      rw [if_pos hge]
    · simp only [normGenericField]
      rw [if_neg hge]
      show (if (lowerStr gg).isEmpty = true then none else some (lowerStr (lowerStr gg))) =
        some (lowerStr gg)
      rw [if_neg (by rw [isEmpty_lowerStr]; exact hge), lowerStr_idem]

/-- Claim C5: the Normalizer is idempotent — for every extracted mention,
    applying `apply_pre_match_guardrails` to its own output yields the same
    normalized mention (same brand, variant, generic name, strength, form and
    frequency fields) as applying it once. -/
theorem c5_normalizer_idempotent (e : ExtractedMedicine) (logs1 logs2 : List Str) :
    (apply_pre_match_guardrails ((apply_pre_match_guardrails e logs1).1) logs2).1 =
      (apply_pre_match_guardrails e logs1).1 := by
  rw [apply_pre_fields ((apply_pre_match_guardrails e logs1).1) logs2,
    apply_pre_fields e logs1]
  simp only [normBrand_idem, detectVariant_after, normGenericField_idem,
    normFormField_idem, normFreqField_idem]
  cases htv : truthy (detectVariant e.brand_variant e.brand_name) <;> simp [htv]

end MedMap

